import Mathlib

/-!
# FeatureExtractorCuda: GLCM texture features

A shallow embedding of the sliding-window GLCM feature extractor
(`src/Implementations`): the work area and its reset, the direction driver,
the sliding-window orchestration of `ImageFeatureComputer`, and the
co-occurrence builder declared in `GLCM.h`.

Conventions of the embedding:
* C++ `int` values are `Int`; gray levels and frequencies (unsigned) are `Nat`;
  loop counters are taken not to overflow, and the `int` products and sums of
  `printExtimatedSizes`, `compute` and `saveFeatureImage` are wrapped to 32
  bits by `toInt32`;
* a pre-allocated array reached through a pointer is a `List` of its slots;
  a write to index `i` is `List.set`, a checked read is `l[i]?`;
* a counted loop `for (int i = 0; i < n; ++i)` is a left fold over
  `List.range n.toNat`;
* code that can throw or leave its arrays returns `Except Fault _`.
-/

/-! ## Pair value types -/

/-- One ordered pair of gray levels with its occurrence count
(`GrayPair`: reference level `i`, neighbor level `j`, `frequency`). -/
structure GrayPair where
  grayLevelI : Nat
  grayLevelJ : Nat
  frequency : Nat
  deriving DecidableEq, Repr

/-- A derived key with its occurrence count (`AggregatedGrayPair`). -/
structure AggregatedGrayPair where
  aggregatedGrayLevels : Nat
  frequency : Nat
  deriving DecidableEq, Repr

/-- The default-constructed `GrayPair voidElement; // 0 in each field`
of `WorkArea::cleanup`. -/
def GrayPair.voidElement : GrayPair := ⟨0, 0, 0⟩

/-- The default-constructed
`AggregatedGrayPair voidAggregatedElement; // 0 in each field`. -/
def AggregatedGrayPair.voidAggregatedElement : AggregatedGrayPair := ⟨0, 0⟩

/-! ## Work area (`Pre-Cuda/WorkArea.cpp`) -/

/-- The arena of one GLCM construction: five slot arrays and the element count
`numberOfElements` that `cleanup` iterates over. -/
structure WorkArea where
  numberOfElements : Int
  grayPairs : List GrayPair
  summedPairs : List AggregatedGrayPair
  subtractedPairs : List AggregatedGrayPair
  xMarginalPairs : List AggregatedGrayPair
  yMarginalPairs : List AggregatedGrayPair
  deriving DecidableEq, Repr

/-- The body of the loop of `WorkArea::cleanup` at index `i`: the five
assignments `grayPairs[i] = voidElement; ... yMarginalPairs[i] = ...`. -/
def WorkArea.cleanupSlot (wa : WorkArea) (i : Nat) : WorkArea :=
  { wa with
    grayPairs := wa.grayPairs.set i GrayPair.voidElement
    summedPairs := wa.summedPairs.set i AggregatedGrayPair.voidAggregatedElement
    subtractedPairs := wa.subtractedPairs.set i AggregatedGrayPair.voidAggregatedElement
    xMarginalPairs := wa.xMarginalPairs.set i AggregatedGrayPair.voidAggregatedElement
    yMarginalPairs := wa.yMarginalPairs.set i AggregatedGrayPair.voidAggregatedElement }

/-- The method `WorkArea::cleanup`: `for (int i = 0; i < numberOfElements; ++i)` over the
five arrays. -/
def WorkArea.cleanup (wa : WorkArea) : WorkArea :=
  (List.range wa.numberOfElements.toNat).foldl WorkArea.cleanupSlot wa

/-! ## Geometry descriptors -/

/-- Metadata of the image read (`ImageData`): physical dimensions and the
maximum gray level. -/
structure ImageData where
  rows : Int
  columns : Int
  maxGrayLevel : Nat
  deriving DecidableEq, Repr

/-- The window of interest (`Window`): side, distance between the pixels of a
pair, symmetry flag, the shift of the direction being computed and the offset
of the window inside the image. -/
structure Window where
  side : Int
  distance : Int
  symmetric : Bool
  shiftRows : Int
  shiftColumns : Int
  imageRowsOffset : Int
  imageColumnsOffset : Int
  deriving DecidableEq, Repr

/-- The constructor call `Window(side, distance, symmetric)` of
`ImageFeatureComputer::computeAllFeatures`; the remaining members start at 0. -/
def Window.new (side distance : Int) (symmetric : Bool) : Window :=
  ⟨side, distance, symmetric, 0, 0, 0, 0⟩

/-- The setter `Window::setSpacialOffsets(i, j)`: the starting point of the window inside
the image. -/
def Window.setSpacialOffsets (w : Window) (rowOffset columnOffset : Int) : Window :=
  { w with imageRowsOffset := rowOffset, imageColumnsOffset := columnOffset }

/-- One of the four supported directions with the shift that locates the
neighbor pixel of a pair (`Direction`). -/
structure Direction where
  angle : Nat
  shiftRows : Int
  shiftColumns : Int
  deriving DecidableEq, Repr

/-- Modelled from the spec: `Direction.h` / `Direction.cpp` are not among the
sources. The table of `Direction::getAllDirections()`: the four directions in
the canonical order 0°, 45°, 90°, 135°, each with its fixed unit shift (the
neighbor lies to the right for 0°, up-right for 45°, up for 90°, up-left for
135°, the convention of the offsets documented in `GLCM.h`). -/
def Direction.getAllDirections : List Direction :=
  [⟨0, 0, 1⟩, ⟨45, -1, 1⟩, ⟨90, -1, 0⟩, ⟨135, -1, -1⟩]

/-- What a run can die of. -/
inductive Fault where
  /-- The exception (`std::length_error`, `std::bad_alloc` in older libraries)
  of constructing a `std::vector` from a negative `int` count, which converts
  to a `size_type` above `max_size()`. -/
  | lengthError
  /-- An unchecked `operator[]` outside the array. -/
  | indexOutOfRange
  /-- The `std::out_of_range` thrown by `vector::at`. -/
  | outOfRange
  /-- More distinct keys than the pre-allocated slots. -/
  | capacityExceeded
  deriving DecidableEq, Repr

/-! ## Direction driver (`Pre-Cuda/WindowFeatureComputer.cpp`) -/

/-- The run of one `FeatureComputer` (construction and
`computeDirectionalFeatures()`), a parameter of the driver: from the pixels,
the image metadata, the shift, the window and the work area it yields the
feature vector and the work area as it leaves it. -/
abbrev FeatureRun (α : Type) :=
  List Nat → ImageData → Int → Int → Window → WorkArea → List α × WorkArea

/-- One iteration of the loop of `computeWindowFeatures`:
`actualDir = allDirections[i]`, the `FeatureComputer` run with its shift and
`featureList[i] = computedFeatures`. -/
def PreCuda.WindowFeatureComputer.directionStep {α : Type} (fc : FeatureRun α)
    (pixels : List Nat) (image : ImageData) (windowData : Window)
    (st : List (List α) × WorkArea) (i : Nat) : Except Fault (List (List α) × WorkArea) :=
  match Direction.getAllDirections[i]? with
  | none => .error Fault.indexOutOfRange
  | some actualDir =>
    let computed := fc pixels image actualDir.shiftRows actualDir.shiftColumns windowData st.2
    .ok (st.1.set i computed.1, computed.2)

/-- The method `WindowFeatureComputer::computeWindowFeatures(numberOfDirections)` of the
Pre-Cuda implementation: a vector of `numberOfDirections` empty feature
vectors, filled by one `FeatureComputer` run per direction. -/
def PreCuda.WindowFeatureComputer.computeWindowFeatures {α : Type} (fc : FeatureRun α)
    (pixels : List Nat) (image : ImageData) (windowData : Window) (workArea : WorkArea)
    (numberOfDirections : Int) : Except Fault (List (List α) × WorkArea) :=
  if numberOfDirections < 0 then .error Fault.lengthError
  else
    (List.range numberOfDirections.toNat).foldlM
      (PreCuda.WindowFeatureComputer.directionStep fc pixels image windowData)
      (List.replicate numberOfDirections.toNat [], workArea)

/-- The work area as the `i`-th `FeatureComputer` of a window finds it: the
caller's work area after the runs of the directions before `i`. -/
def PreCuda.WindowFeatureComputer.workAreaBefore {α : Type} (fc : FeatureRun α)
    (pixels : List Nat) (image : ImageData) (windowData : Window) (workArea : WorkArea) :
    Nat → WorkArea
  | 0 => workArea
  | k + 1 =>
    match Direction.getAllDirections[k]? with
    | some d =>
      (fc pixels image d.shiftRows d.shiftColumns windowData
        (PreCuda.WindowFeatureComputer.workAreaBefore fc pixels image windowData workArea k)).2
    | none => PreCuda.WindowFeatureComputer.workAreaBefore fc pixels image windowData workArea k

/-- A feature run used to exercise the driver: it reports the shift it was
given and the pixel count, and marks the work area by counting in
`numberOfElements`. -/
def PreCuda.WindowFeatureComputer.probeRun : FeatureRun Int :=
  fun pixels _ shiftRows shiftColumns _ wa =>
    ([shiftRows, shiftColumns, pixels.length],
      { wa with numberOfElements := wa.numberOfElements + 1 })

/-! ## Orchestration (`C++/src/ImageFeatureComputer.cpp`) -/

/-- The image read (`Image`): its pixels and what `getRows()`, `getColumns()`
and `getMaxGrayLevel()` report. -/
structure Image where
  pixels : List Nat
  rows : Int
  columns : Int
  maxGrayLevel : Nat
  deriving DecidableEq, Repr

/-- The getter `Image::getRows()`. -/
def Image.getRows (img : Image) : Int := img.rows

/-- The getter `Image::getColumns()`. -/
def Image.getColumns (img : Image) : Int := img.columns

/-- The options of a run (`ProgramArguments`), the members that
`ImageFeatureComputer.cpp` reads. -/
structure ProgramArguments where
  windowSize : Int
  distance : Int
  symmetric : Bool
  numberOfDirections : Int
  crop : Bool
  createImages : Bool
  imagePath : String
  deriving DecidableEq, Repr

/-- A line written to `cout` by `checkOptionCompatibility`. -/
inductive Diagnostic where
  /-- "WARNING! The window side specified with the option -w exceeds the
  smallest dimension (n) of the image read!" -/
  | windowSideExceeds (imageSmallestSide : Int)
  /-- "Window side is corrected to (n)" -/
  | windowSideCorrected (imageSmallestSide : Int)
  deriving DecidableEq, Repr

/-- The function `checkOptionCompatibility(progArg, img)`: the options as it leaves them and
the lines it prints. -/
def checkOptionCompatibility (progArg : ProgramArguments) (img : Image) :
    ProgramArguments × List Diagnostic :=
  let imageSmallestSide : Int :=
    if img.getColumns < img.getRows then img.getColumns else img.getRows
  if progArg.windowSize > imageSmallestSide then
    ({ progArg with windowSize := imageSmallestSide },
      [Diagnostic.windowSideExceeds imageSmallestSide,
       Diagnostic.windowSideCorrected imageSmallestSide])
  else (progArg, [])

/-- The loop `for (int i = start; (i + side) <= limit; i++) body(i)` on a
state `σ`. The fuel bounds the number of iterations; `slideFuel` is what the
loop needs. The counter is an unbounded `Int`: the loop is that of the source
while `limit - side + 1` is a value that an `int` holds. -/
def slideLoop {σ : Type} (side limit : Int) (body : σ → Int → σ) : Nat → Int → σ → σ
  | 0, _, s => s
  | fuel + 1, i, s =>
    if i + side ≤ limit then slideLoop side limit body fuel (i + 1) (body s i) else s

/-- The number of iterations of `for (int i = 0; (i + side) <= limit; i++)`. -/
def slideFuel (side limit : Int) : Nat := (limit - side + 1).toNat

/-- The method `ImageFeatureComputer::computeAllFeatures(img)`. The construction
of the `WindowFeatureComputer` and its `computeWindowFeatures(numberOfDirections)`
are the parameter `computeWindowFeatures`; `featuresList.push_back(wfs)` is
the append of one element. The local `numberOfWindows`, computed and never
read, is left out. -/
def ImageFeatureComputer.computeAllFeatures {β : Type}
    (computeWindowFeatures : Image → Window → Int → β)
    (progArg : ProgramArguments) (img : Image) : List β :=
  let windowData := Window.new progArg.windowSize progArg.distance progArg.symmetric
  slideLoop windowData.side img.getRows
    (fun featuresList i =>
      slideLoop windowData.side img.getColumns
        (fun featuresList j =>
          let actualWindow :=
            (Window.new windowData.side windowData.distance windowData.symmetric).setSpacialOffsets
              i j
          let wfs := computeWindowFeatures img actualWindow progArg.numberOfDirections
          featuresList ++ [wfs])
        (slideFuel windowData.side img.getColumns) 0 featuresList)
    (slideFuel windowData.side img.getRows) 0 []

/-- The windows that `computeAllFeatures` hands to the `WindowFeatureComputer`,
in the order of the calls: the run with a computer that returns its window. -/
def ImageFeatureComputer.windowsHandedOver (progArg : ProgramArguments) (img : Image) :
    List Window :=
  ImageFeatureComputer.computeAllFeatures (fun _ w _ => w) progArg img

/-- The first steps of `ImageFeatureComputer::compute()` once the image is
loaded: `checkOptionCompatibility(progArg, img)` followed by
`computeAllFeatures(img)` on the options it left. Yields the lines printed
and the feature list. -/
def ImageFeatureComputer.checkAndComputeAllFeatures {β : Type}
    (computeWindowFeatures : Image → Window → Int → β)
    (progArg : ProgramArguments) (img : Image) : List Diagnostic × List β :=
  let checked := checkOptionCompatibility progArg img
  (checked.2, ImageFeatureComputer.computeAllFeatures computeWindowFeatures checked.1 img)

/-- The statement
`featuresInDirection[actualFeature].push_back(imageFeatures.at(i).at(j).at(actualFeature))`
of `getAllDirectionsAllFeatureValues`: the unchecked `operator[]` on
`featuresInDirection`, the three checked `at`, and the `push_back`. -/
def ImageFeatureComputer.pushFeatureValue {α : Type} (imageFeatures : List (List (List α)))
    (i j : Nat) (featuresInDirection : List (List α)) (actualFeature : Nat) :
    Except Fault (List (List α)) :=
  match featuresInDirection[actualFeature]? with
  | none => .error Fault.indexOutOfRange
  | some series =>
    match imageFeatures[i]? with
    | none => .error Fault.outOfRange
    | some windowFeatures =>
      match windowFeatures[j]? with
      | none => .error Fault.outOfRange
      | some directionFeatures =>
        match directionFeatures[actualFeature]? with
        | none => .error Fault.outOfRange
        | some value => .ok (featuresInDirection.set actualFeature (series ++ [value]))

/-- The loop over the supported features for window `i` and direction `j`:
`actualFeature = supportedFeatures[k]` and the push of its value. -/
def ImageFeatureComputer.pushWindowValues {α : Type} (supportedFeatures : List Nat)
    (imageFeatures : List (List (List α))) (j : Nat)
    (featuresInDirection : List (List α)) (i : Nat) : Except Fault (List (List α)) :=
  (List.range supportedFeatures.length).foldlM
    (fun fid k =>
      match supportedFeatures[k]? with
      | none => .error Fault.indexOutOfRange
      | some actualFeature =>
        ImageFeatureComputer.pushFeatureValue imageFeatures i j fid actualFeature)
    featuresInDirection

/-- The body of the loop over the directions: a vector of
`supportedFeatures.size()` empty series, filled window by window, then
`output[j] = featuresInDirection`. -/
def ImageFeatureComputer.collectDirection {α : Type} (supportedFeatures : List Nat)
    (imageFeatures : List (List (List α))) (output : List (List (List α))) (j : Nat) :
    Except Fault (List (List (List α))) :=
  match (List.range imageFeatures.length).foldlM
      (ImageFeatureComputer.pushWindowValues supportedFeatures imageFeatures j)
      (List.replicate supportedFeatures.length []) with
  | .error e => .error e
  | .ok featuresInDirection => .ok (output.set j featuresInDirection)

/-- The method `ImageFeatureComputer::getAllDirectionsAllFeatureValues(imageFeatures)`.
The list `Features::getAllSupportedFeatures()` of feature names (enumerators,
used as indices) is the parameter `supportedFeatures`. -/
def ImageFeatureComputer.getAllDirectionsAllFeatureValues {α : Type}
    (supportedFeatures : List Nat) (progArg : ProgramArguments)
    (imageFeatures : List (List (List α))) : Except Fault (List (List (List α))) :=
  let numberOfDirs := progArg.numberOfDirections
  if numberOfDirs < 0 then .error Fault.lengthError
  else
    (List.range numberOfDirs.toNat).foldlM
      (ImageFeatureComputer.collectDirection supportedFeatures imageFeatures)
      (List.replicate numberOfDirs.toNat [])

/-- A series holds, in window order, the value of feature `f` in direction `j`
of the first `m` windows. -/
def ImageFeatureComputer.SeriesOk {α : Type} (imageFeatures : List (List (List α)))
    (j f m : Nat) (series : List α) : Prop :=
  series.length = m ∧ ∀ i, i < m → ∃ wf v x,
    imageFeatures[i]? = some wf ∧ wf[j]? = some v ∧ v[f]? = some x ∧ series[i]? = some x

/-- The `F` series of direction `j`, where the series of the features below
`k` hold `m + 1` windows and the others `m`. -/
def ImageFeatureComputer.DirectionOk {α : Type} (imageFeatures : List (List (List α)))
    (F j m k : Nat) (featuresInDirection : List (List α)) : Prop :=
  featuresInDirection.length = F ∧ ∀ f, f < F → ∃ series,
    featuresInDirection[f]? = some series ∧
      ImageFeatureComputer.SeriesOk imageFeatures j f (if f < k then m + 1 else m) series

/-! ## Co-occurrence builder (`Cuda/src/GLCM.h`)

`GLCM.h` declares the builder; its implementation file is not among the
sources. The definitions below follow the declarations of the header and the
algorithm of the specification (component design, co-occurrence builder). -/

/-- Modelled from the spec: the key of a gray pair in the find-or-insert
policy, "scan occupied slots for an existing (i,j)": the same ordered pair of
gray levels. -/
def GrayPair.sameLevels (a b : GrayPair) : Bool :=
  a.grayLevelI == b.grayLevelI && a.grayLevelJ == b.grayLevelJ

/-- Modelled from the spec: the key of an aggregated pair in the find-or-insert
policy: the same `k`. -/
def AggregatedGrayPair.sameKey (a b : AggregatedGrayPair) : Bool :=
  a.aggregatedGrayLevels == b.aggregatedGrayLevels

/-- Modelled from the spec: the find-or-insert policy shared by the five
tables (`GLCM.cpp` is not among the sources). Scan the occupied slots
`0 .. lastInsertionPosition-1` for the key of `actual`; if found, merge
`actual` into that slot; otherwise write `actual` into the next free slot and
advance the count. A table with no free slot left is a capacity violation. -/
def GLCM.findOrInsert {E : Type} (sameKey : E → E → Bool) (merge : E → E → E)
    (elements : List E) (actual : E) (lastInsertionPosition : Nat) :
    Except Fault (List E × Nat) :=
  match (List.range lastInsertionPosition).find?
      (fun p => (elements[p]?).any (fun e => sameKey e actual)) with
  | some position =>
    match elements[position]? with
    | some e => .ok (elements.set position (merge e actual), lastInsertionPosition)
    | none => .error Fault.indexOutOfRange
  | none =>
    if lastInsertionPosition < elements.length then
      .ok (elements.set lastInsertionPosition actual, lastInsertionPosition + 1)
    else .error Fault.capacityExceeded

/-- Modelled from the spec: one insertion of a gray pair, "if found, increment
its frequency; otherwise write into the next free slot". -/
def GLCM.insertGrayPair (elements : List GrayPair) (actualPair : GrayPair)
    (lastInsertionPosition : Nat) : Except Fault (List GrayPair × Nat) :=
  GLCM.findOrInsert GrayPair.sameLevels (fun e _ => { e with frequency := e.frequency + 1 })
    elements actualPair lastInsertionPosition

/-- Modelled from the spec: `GLCM::insertElement(GrayPair* elements, GrayPair
actualPair, uint& lastInsertionPosition, bool symmetricity)` (declared in
`GLCM.h`, implementation not among the sources). Inserts the pair and, if
`symmetricity` is set, additionally the mirrored pair `(j, i)` by the same
rule, also when `i = j`. -/
def GLCM.insertElement (elements : List GrayPair) (actualPair : GrayPair)
    (lastInsertionPosition : Nat) (symmetricity : Bool) : Except Fault (List GrayPair × Nat) :=
  match GLCM.insertGrayPair elements actualPair lastInsertionPosition with
  | .error e => .error e
  | .ok (elements1, last1) =>
    if symmetricity then
      GLCM.insertGrayPair elements1
        ⟨actualPair.grayLevelJ, actualPair.grayLevelI, actualPair.frequency⟩ last1
    else .ok (elements1, last1)

/-- Modelled from the spec: `GLCM::insertElement(AggregatedGrayPair* elements,
AggregatedGrayPair actualPair, uint& lastInsertionPosition)` (declared in
`GLCM.h`, implementation not among the sources): find-or-insert keyed by `k`,
the frequency of `actualPair` accumulated into the slot found. -/
def GLCM.insertAggregatedElement (elements : List AggregatedGrayPair)
    (actualPair : AggregatedGrayPair) (lastInsertionPosition : Nat) :
    Except Fault (List AggregatedGrayPair × Nat) :=
  GLCM.findOrInsert AggregatedGrayPair.sameKey
    (fun e a => { e with frequency := e.frequency + a.frequency })
    elements actualPair lastInsertionPosition

/-- Modelled from the spec: `GLCM::computeWindowColumnOffset()`, "the shift to
apply at the column ... it affects only 135° orientation": one distance to
skip on the left when the neighbor lies to the left. -/
def GLCM.computeWindowColumnOffset (windowData : Window) : Int :=
  if windowData.shiftColumns < 0 then 1 else 0

/-- Modelled from the spec: `GLCM::computeWindowRowOffset()`, "it doesn't
affect only 0° orientation": one distance to skip at the top when the neighbor
lies above. -/
def GLCM.computeWindowRowOffset (windowData : Window) : Int :=
  if windowData.shiftRows < 0 then 1 else 0

/-- Modelled from the spec: `GLCM::getWindowRowsBorder()`, how many rows of the
window hold a reference pixel: `distance` rows are trimmed when the direction
shifts rows. -/
def GLCM.getWindowRowsBorder (windowData : Window) : Int :=
  windowData.side - windowData.distance * |windowData.shiftRows|

/-- Modelled from the spec: `GLCM::getWindowColsBorder()`, how many columns of
the window hold a reference pixel. -/
def GLCM.getWindowColsBorder (windowData : Window) : Int :=
  windowData.side - windowData.distance * |windowData.shiftColumns|

/-- Modelled from the spec: `GLCM::getReferenceIndex(row, col,
initialRowOffset, initialColumnOffset)`, the index of the reference pixel in
the linearized image. -/
def GLCM.getReferenceIndex (img : ImageData) (windowData : Window)
    (row col initialRowOffset initialColumnOffset : Int) : Int :=
  let r := (row + windowData.imageRowsOffset) + initialRowOffset * windowData.distance
  let c := (col + windowData.imageColumnsOffset) + initialColumnOffset * windowData.distance
  r * img.columns + c

/-- Modelled from the spec: `GLCM::getNeighborIndex(row, col,
initialColumnOffset)`, the index of the neighbor pixel: the row above the
reference by the row offset, the column shifted by the direction. -/
def GLCM.getNeighborIndex (img : ImageData) (windowData : Window)
    (row col initialColumnOffset : Int) : Int :=
  let r := row + windowData.imageRowsOffset
  let c := (col + windowData.imageColumnsOffset) + initialColumnOffset * windowData.distance
    + windowData.shiftColumns * windowData.distance
  r * img.columns + c

/-- Modelled from the spec: a read `pixels[index]` of the pixel buffer; an index
outside the buffer is the violation of the in-bounds precondition. -/
def GLCM.readPixel (pixels : List Nat) (index : Int) : Except Fault Nat :=
  if index < 0 then .error Fault.indexOutOfRange
  else
    match pixels[index.toNat]? with
    | some level => .ok level
    | none => .error Fault.indexOutOfRange

/-- The gray pairs under construction: the slots, the number of slots filled
(`lastInsertionPosition`) and the running `numberOfPairs`. -/
structure GLCM.Elements where
  grayPairs : List GrayPair
  lastInsertionPosition : Nat
  numberOfPairs : Nat
  deriving DecidableEq, Repr

/-- Modelled from the spec: the body of the two loops of
`GLCM::initializeGlcmElements()` at the reference pixel `(i, j)` of the
sub-window: read both gray levels, insert the pair (and its mirror in symmetric
mode), count the insertions in `numberOfPairs`. -/
def GLCM.collectPair (pixels : List Nat) (img : ImageData) (windowData : Window)
    (i : Nat) (st : GLCM.Elements) (j : Nat) : Except Fault GLCM.Elements :=
  let initialColumnOffset := GLCM.computeWindowColumnOffset windowData
  let initialRowOffset := GLCM.computeWindowRowOffset windowData
  match GLCM.readPixel pixels
      (GLCM.getReferenceIndex img windowData i j initialRowOffset initialColumnOffset) with
  | .error e => .error e
  | .ok referenceGrayLevel =>
    match GLCM.readPixel pixels
        (GLCM.getNeighborIndex img windowData i j initialColumnOffset) with
    | .error e => .error e
    | .ok neighborGrayLevel =>
      match GLCM.insertElement st.grayPairs ⟨referenceGrayLevel, neighborGrayLevel, 1⟩
          st.lastInsertionPosition windowData.symmetric with
      | .error e => .error e
      | .ok (elements, last) =>
        .ok ⟨elements, last, st.numberOfPairs + (if windowData.symmetric then 2 else 1)⟩

/-- Modelled from the spec: `GLCM::initializeGlcmElements()`, "this method
creates array of GrayPairs": for every reference pixel of the sub-window, row
by row. -/
def GLCM.initializeGlcmElements (pixels : List Nat) (img : ImageData) (windowData : Window)
    (grayPairs : List GrayPair) : Except Fault GLCM.Elements :=
  (List.range (GLCM.getWindowRowsBorder windowData).toNat).foldlM
    (fun st i =>
      (List.range (GLCM.getWindowColsBorder windowData).toNat).foldlM
        (GLCM.collectPair pixels img windowData i) st)
    ⟨grayPairs, 0, 0⟩

/-- Two aggregated tables under construction, each with its count of slots
filled. -/
structure GLCM.AggregatedTables where
  first : List AggregatedGrayPair
  numberOfFirst : Nat
  second : List AggregatedGrayPair
  numberOfSecond : Nat
  deriving DecidableEq, Repr

/-- Modelled from the spec: the body of the loop of
`GLCM::codifyAggregatedPairs()` at the gray pair of index `index`: its
frequency goes to the key `i + j` of `summedPairs` and to the key `|i - j|` of
`subtractedPairs`. -/
def GLCM.codifyAggregatedPair (grayPairs : List GrayPair) (st : GLCM.AggregatedTables)
    (index : Nat) : Except Fault GLCM.AggregatedTables :=
  match grayPairs[index]? with
  | none => .error Fault.indexOutOfRange
  | some pair =>
    match GLCM.insertAggregatedElement st.first
        ⟨pair.grayLevelI + pair.grayLevelJ, pair.frequency⟩ st.numberOfFirst with
    | .error e => .error e
    | .ok (summed, numberOfSummed) =>
      match GLCM.insertAggregatedElement st.second
          ⟨(pair.grayLevelI - pair.grayLevelJ) + (pair.grayLevelJ - pair.grayLevelI),
            pair.frequency⟩ st.numberOfSecond with
      | .error e => .error e
      | .ok (subtracted, numberOfSubtracted) =>
        .ok ⟨summed, numberOfSummed, subtracted, numberOfSubtracted⟩

/-- Modelled from the spec: `GLCM::codifyAggregatedPairs()`, "the 2 arrays of
AggregatedPairs (k, frequency) where k is the sum or difference of both
grayLevels of 1 GrayPair", over the effective gray pairs. -/
def GLCM.codifyAggregatedPairs (grayPairs : List GrayPair)
    (effectiveNumberOfGrayPairs : Nat) (summedPairs subtractedPairs : List AggregatedGrayPair) :
    Except Fault GLCM.AggregatedTables :=
  (List.range effectiveNumberOfGrayPairs).foldlM (GLCM.codifyAggregatedPair grayPairs)
    ⟨summedPairs, 0, subtractedPairs, 0⟩

/-- Modelled from the spec: the body of the loop of
`GLCM::codifyMarginalPairs()` at the gray pair of index `index`: its frequency
goes to the key `i` of `xMarginalPairs` and to the key `j` of
`yMarginalPairs`. -/
def GLCM.codifyMarginalPair (grayPairs : List GrayPair) (st : GLCM.AggregatedTables)
    (index : Nat) : Except Fault GLCM.AggregatedTables :=
  match grayPairs[index]? with
  | none => .error Fault.indexOutOfRange
  | some pair =>
    match GLCM.insertAggregatedElement st.first ⟨pair.grayLevelI, pair.frequency⟩
        st.numberOfFirst with
    | .error e => .error e
    | .ok (xMarginal, numberOfx) =>
      match GLCM.insertAggregatedElement st.second ⟨pair.grayLevelJ, pair.frequency⟩
          st.numberOfSecond with
      | .error e => .error e
      | .ok (yMarginal, numberOfy) => .ok ⟨xMarginal, numberOfx, yMarginal, numberOfy⟩

/-- Modelled from the spec: `GLCM::codifyMarginalPairs()`, "the 2 arrays of
AggregatedPairs (k, frequency) where k is one grayLevel of GLCM and frequency
is the marginal frequency of that level", over the effective gray pairs. -/
def GLCM.codifyMarginalPairs (grayPairs : List GrayPair)
    (effectiveNumberOfGrayPairs : Nat) (xMarginalPairs yMarginalPairs : List AggregatedGrayPair) :
    Except Fault GLCM.AggregatedTables :=
  (List.range effectiveNumberOfGrayPairs).foldlM (GLCM.codifyMarginalPair grayPairs)
    ⟨xMarginalPairs, 0, yMarginalPairs, 0⟩

/-- The members of `class GLCM` (`GLCM.h`): the five arrays borrowed from the
work area, each with its effective count, and the private `numberOfPairs` and
image metadata. -/
structure GLCM where
  grayPairs : List GrayPair
  effectiveNumberOfGrayPairs : Nat
  summedPairs : List AggregatedGrayPair
  numberOfSummedPairs : Nat
  subtractedPairs : List AggregatedGrayPair
  numberOfSubtractedPairs : Nat
  xMarginalPairs : List AggregatedGrayPair
  numberOfxMarginalPairs : Nat
  yMarginalPairs : List AggregatedGrayPair
  numberOfyMarginalPairs : Nat
  numberOfPairs : Nat
  img : ImageData
  windowData : Window
  deriving DecidableEq, Repr

/-- The getter `GLCM::getNumberOfPairs()`: "the number of pairs that belongs to
the GLCM". -/
def GLCM.getNumberOfPairs (g : GLCM) : Nat := g.numberOfPairs

/-- The getter `GLCM::getMaxGrayLevel()`. -/
def GLCM.getMaxGrayLevel (g : GLCM) : Nat := g.img.maxGrayLevel

/-- Modelled from the spec: the constructor `GLCM::GLCM(pixels, image,
windowData, wa)` (declared in `GLCM.h`, implementation not among the sources):
the work area is reset, then the gray pairs are collected from the window and
the four aggregate tables derived from them, all into the arrays of the work
area. -/
def GLCM.build (pixels : List Nat) (image : ImageData) (windowData : Window) (wa : WorkArea) :
    Except Fault GLCM :=
  let workArea := wa.cleanup
  match GLCM.initializeGlcmElements pixels image windowData workArea.grayPairs with
  | .error e => .error e
  | .ok elements =>
    match GLCM.codifyAggregatedPairs elements.grayPairs elements.lastInsertionPosition
        workArea.summedPairs workArea.subtractedPairs with
    | .error e => .error e
    | .ok aggregated =>
      match GLCM.codifyMarginalPairs elements.grayPairs elements.lastInsertionPosition
          workArea.xMarginalPairs workArea.yMarginalPairs with
      | .error e => .error e
      | .ok marginal =>
        .ok { grayPairs := elements.grayPairs
              effectiveNumberOfGrayPairs := elements.lastInsertionPosition
              summedPairs := aggregated.first
              numberOfSummedPairs := aggregated.numberOfFirst
              subtractedPairs := aggregated.second
              numberOfSubtractedPairs := aggregated.numberOfSecond
              xMarginalPairs := marginal.first
              numberOfxMarginalPairs := marginal.numberOfFirst
              yMarginalPairs := marginal.second
              numberOfyMarginalPairs := marginal.numberOfSecond
              numberOfPairs := elements.numberOfPairs
              img := image
              windowData := windowData }

/-- The sum of a measure over the occupied slots of a table. -/
def GLCM.tableSum {E : Type} (measure : E → Nat) (elements : List E) (occupied : Nat) : Nat :=
  ((elements.take occupied).map measure).sum

/-- The frequency that a slot records for the pair of gray levels `(i, j)`: its
frequency when it holds that pair, 0 otherwise. -/
def GrayPair.frequencyAt (i j : Nat) (p : GrayPair) : Nat :=
  if p.grayLevelI = i ∧ p.grayLevelJ = j then p.frequency else 0

/-- The frequency of the pair of gray levels `(i, j)` in the gray-pair table of
a GLCM: what its effective slots record for `(i, j)`, 0 when the pair was never
observed. -/
def GLCM.frequencyOf (g : GLCM) (i j : Nat) : Nat :=
  GLCM.tableSum (GrayPair.frequencyAt i j) g.grayPairs g.effectiveNumberOfGrayPairs

/-- The relation between the gray pairs collected in symmetric mode and those
collected in non-symmetric mode from the same reference pixels: every pair
`(i, j)` has, on the symmetric side, the frequency of `(i, j)` plus that of
`(j, i)` of the other side, and the symmetric `numberOfPairs` is twice the
other. -/
def GLCM.MirrorMerged (sym plain : GLCM.Elements) : Prop :=
  (∀ i j, GLCM.tableSum (GrayPair.frequencyAt i j) sym.grayPairs sym.lastInsertionPosition
      = GLCM.tableSum (GrayPair.frequencyAt i j) plain.grayPairs plain.lastInsertionPosition
        + GLCM.tableSum (GrayPair.frequencyAt j i) plain.grayPairs
            plain.lastInsertionPosition)
  ∧ sym.numberOfPairs = 2 * plain.numberOfPairs

/-- The GLCM of the 2x2 image `0 5 / 5 0` for the whole image as window,
distance 1, direction 0°, non-symmetric, in a work area of two slots. -/
def GLCM.exampleGLCM : GLCM :=
  { grayPairs := [⟨0, 5, 1⟩, ⟨5, 0, 1⟩]
    effectiveNumberOfGrayPairs := 2
    summedPairs := [⟨5, 2⟩, ⟨0, 0⟩]
    numberOfSummedPairs := 1
    subtractedPairs := [⟨5, 2⟩, ⟨0, 0⟩]
    numberOfSubtractedPairs := 1
    xMarginalPairs := [⟨0, 1⟩, ⟨5, 1⟩]
    numberOfxMarginalPairs := 2
    yMarginalPairs := [⟨5, 1⟩, ⟨0, 1⟩]
    numberOfyMarginalPairs := 2
    numberOfPairs := 2
    img := ⟨2, 2, 5⟩
    windowData := ⟨2, 1, false, 0, 1, 0, 0⟩ }

/-- The GLCM of the same image and window in symmetric mode, in a work area of
four slots. -/
def GLCM.exampleSymmetricGLCM : GLCM :=
  { grayPairs := [⟨0, 5, 2⟩, ⟨5, 0, 2⟩, ⟨0, 0, 0⟩, ⟨0, 0, 0⟩]
    effectiveNumberOfGrayPairs := 2
    summedPairs := [⟨5, 4⟩, ⟨0, 0⟩, ⟨0, 0⟩, ⟨0, 0⟩]
    numberOfSummedPairs := 1
    subtractedPairs := [⟨5, 4⟩, ⟨0, 0⟩, ⟨0, 0⟩, ⟨0, 0⟩]
    numberOfSubtractedPairs := 1
    xMarginalPairs := [⟨0, 2⟩, ⟨5, 2⟩, ⟨0, 0⟩, ⟨0, 0⟩]
    numberOfxMarginalPairs := 2
    yMarginalPairs := [⟨5, 2⟩, ⟨0, 2⟩, ⟨0, 0⟩, ⟨0, 0⟩]
    numberOfyMarginalPairs := 2
    numberOfPairs := 4
    img := ⟨2, 2, 5⟩
    windowData := ⟨2, 1, true, 0, 1, 0, 0⟩ }

/-- The in-bounds precondition of the builder: every reference pixel of the
sub-window and its neighbor lie inside the pixel buffer. -/
def GLCM.InBounds (pixels : List Nat) (img : ImageData) (windowData : Window) : Prop :=
  ∀ i j : Nat, (i : Int) < GLCM.getWindowRowsBorder windowData →
    (j : Int) < GLCM.getWindowColsBorder windowData →
    (0 ≤ GLCM.getReferenceIndex img windowData i j (GLCM.computeWindowRowOffset windowData)
          (GLCM.computeWindowColumnOffset windowData)
      ∧ GLCM.getReferenceIndex img windowData i j (GLCM.computeWindowRowOffset windowData)
          (GLCM.computeWindowColumnOffset windowData) < pixels.length)
    ∧ (0 ≤ GLCM.getNeighborIndex img windowData i j (GLCM.computeWindowColumnOffset windowData)
      ∧ GLCM.getNeighborIndex img windowData i j (GLCM.computeWindowColumnOffset windowData)
          < pixels.length)

/-- The number of insertions of one construction: one per reference pixel, two
in symmetric mode. -/
def GLCM.insertions (windowData : Window) : Nat :=
  (GLCM.getWindowRowsBorder windowData).toNat * (GLCM.getWindowColsBorder windowData).toNat
    * (if windowData.symmetric then 2 else 1)

/-- No two occupied slots of a gray-pair table hold the same pair of gray
levels. -/
def GLCM.DistinctKeys (l : List GrayPair) (occupied : Nat) : Prop :=
  ∀ p q e f, p < q → q < occupied → l[p]? = some e → l[q]? = some f →
    ¬ (e.grayLevelI = f.grayLevelI ∧ e.grayLevelJ = f.grayLevelJ)

/-! ## 32-bit `int` arithmetic and the rest of `ImageFeatureComputer::compute` -/

/-- The value of a C++ `int` expression whose mathematical value is `x`: the
representative of `x` modulo `2^32` in `-2^31 .. 2^31-1` (a 32-bit `int`,
overflow wraps around). -/
def toInt32 (x : Int) : Int := (x + 2147483648) % 4294967296 - 2147483648

/-- The method `ImageFeatureComputer::printExtimatedSizes(img)`: the two numbers
it prints, "Total features number" and "Total features weight" (in MB). Every
product, sum and difference is an `int`; `/` on `int` truncates. -/
def ImageFeatureComputer.printExtimatedSizes (progArg : ProgramArguments) (img : Image) :
    Int × Int :=
  let numberOfRows := toInt32 (toInt32 (img.getRows - progArg.windowSize) + 1)
  let numberOfColumns := toInt32 (toInt32 (img.getColumns - progArg.windowSize) + 1)
  let numberOfWindows := toInt32 (numberOfRows * numberOfColumns)
  let featureNumber := toInt32 (toInt32 (numberOfWindows * 18) * progArg.numberOfDirections)
  let featureSize := Int.tdiv (Int.tdiv (toInt32 (featureNumber * 8)) 1024) 1024
  (featureNumber, featureSize)

/-- A fold of writes keeps the number of slots. -/
theorem foldl_set_length {α : Type} (v : α) (ks : List Nat) (l : List α) :
    (ks.foldl (fun acc k => acc.set k v) l).length = l.length := by
  induction ks generalizing l with
  | nil => rfl
  | cons k ks ih => simp [List.foldl_cons, ih]

/-- Writing `v` at the indices `0 .. n-1` leaves `v` in every such slot. -/
theorem foldl_set_getElem? {α : Type} (v : α) (n : Nat) (l : List α) (i : Nat)
    (hi : i < n) (hl : i < l.length) :
    ((List.range n).foldl (fun acc k => acc.set k v) l)[i]? = some v := by
  induction n with
  | zero => omega
  | succ m ih =>
    rw [List.range_succ, List.foldl_append]
    simp only [List.foldl_cons, List.foldl_nil]
    by_cases h : i = m
    · subst h
      rw [List.getElem?_set_self]
      rw [foldl_set_length]; exact hl
    · rw [List.getElem?_set_ne (Ne.symm h)]
      exact ih (by omega)

/-- Writing `v` at the indices `0 .. n-1` leaves the slots from `n` on alone. -/
theorem foldl_set_getElem?_ge {α : Type} (v : α) (n : Nat) (l : List α) (i : Nat)
    (hi : n ≤ i) :
    ((List.range n).foldl (fun acc k => acc.set k v) l)[i]? = l[i]? := by
  induction n with
  | zero => rfl
  | succ m ih =>
    rw [List.range_succ, List.foldl_append]
    simp only [List.foldl_cons, List.foldl_nil]
    rw [List.getElem?_set_ne (by omega)]
    exact ih (by omega)

theorem WorkArea.foldl_cleanupSlot_numberOfElements (ks : List Nat) (wa : WorkArea) :
    (ks.foldl WorkArea.cleanupSlot wa).numberOfElements = wa.numberOfElements := by
  induction ks generalizing wa with
  | nil => rfl
  | cons k ks ih => simp [List.foldl_cons, ih, WorkArea.cleanupSlot]

theorem WorkArea.foldl_cleanupSlot_grayPairs (ks : List Nat) (wa : WorkArea) :
    (ks.foldl WorkArea.cleanupSlot wa).grayPairs
      = ks.foldl (fun acc k => acc.set k GrayPair.voidElement) wa.grayPairs := by
  induction ks generalizing wa with
  | nil => rfl
  | cons k ks ih => simp [List.foldl_cons, ih, WorkArea.cleanupSlot]

theorem WorkArea.foldl_cleanupSlot_summedPairs (ks : List Nat) (wa : WorkArea) :
    (ks.foldl WorkArea.cleanupSlot wa).summedPairs
      = ks.foldl (fun acc k => acc.set k AggregatedGrayPair.voidAggregatedElement)
          wa.summedPairs := by
  induction ks generalizing wa with
  | nil => rfl
  | cons k ks ih => simp [List.foldl_cons, ih, WorkArea.cleanupSlot]

theorem WorkArea.foldl_cleanupSlot_subtractedPairs (ks : List Nat) (wa : WorkArea) :
    (ks.foldl WorkArea.cleanupSlot wa).subtractedPairs
      = ks.foldl (fun acc k => acc.set k AggregatedGrayPair.voidAggregatedElement)
          wa.subtractedPairs := by
  induction ks generalizing wa with
  | nil => rfl
  | cons k ks ih => simp [List.foldl_cons, ih, WorkArea.cleanupSlot]

theorem WorkArea.foldl_cleanupSlot_xMarginalPairs (ks : List Nat) (wa : WorkArea) :
    (ks.foldl WorkArea.cleanupSlot wa).xMarginalPairs
      = ks.foldl (fun acc k => acc.set k AggregatedGrayPair.voidAggregatedElement)
          wa.xMarginalPairs := by
  induction ks generalizing wa with
  | nil => rfl
  | cons k ks ih => simp [List.foldl_cons, ih, WorkArea.cleanupSlot]

theorem WorkArea.foldl_cleanupSlot_yMarginalPairs (ks : List Nat) (wa : WorkArea) :
    (ks.foldl WorkArea.cleanupSlot wa).yMarginalPairs
      = ks.foldl (fun acc k => acc.set k AggregatedGrayPair.voidAggregatedElement)
          wa.yMarginalPairs := by
  induction ks generalizing wa with
  | nil => rfl
  | cons k ks ih => simp [List.foldl_cons, ih, WorkArea.cleanupSlot]

/-! ## C1: the arena reset -/

/-- C1. After `WorkArea::cleanup`, whatever the five arrays held before, every
slot with an index in `0 .. numberOfElements-1` of `grayPairs`, `summedPairs`,
`subtractedPairs`, `xMarginalPairs` and `yMarginalPairs` holds the empty
element (all key fields zero, frequency zero); the arrays keep their sizes. -/
theorem WorkArea.cleanup_resets_every_slot (wa : WorkArea) (i : Nat)
    (hi : (i : Int) < wa.numberOfElements) :
    (i < wa.grayPairs.length → wa.cleanup.grayPairs[i]? = some ⟨0, 0, 0⟩)
    ∧ (i < wa.summedPairs.length → wa.cleanup.summedPairs[i]? = some ⟨0, 0⟩)
    ∧ (i < wa.subtractedPairs.length → wa.cleanup.subtractedPairs[i]? = some ⟨0, 0⟩)
    ∧ (i < wa.xMarginalPairs.length → wa.cleanup.xMarginalPairs[i]? = some ⟨0, 0⟩)
    ∧ (i < wa.yMarginalPairs.length → wa.cleanup.yMarginalPairs[i]? = some ⟨0, 0⟩)
    ∧ wa.cleanup.grayPairs.length = wa.grayPairs.length
    ∧ wa.cleanup.summedPairs.length = wa.summedPairs.length
    ∧ wa.cleanup.subtractedPairs.length = wa.subtractedPairs.length
    ∧ wa.cleanup.xMarginalPairs.length = wa.xMarginalPairs.length
    ∧ wa.cleanup.yMarginalPairs.length = wa.yMarginalPairs.length := by
  have hn : i < wa.numberOfElements.toNat := by omega
  unfold WorkArea.cleanup
  rw [WorkArea.foldl_cleanupSlot_grayPairs, WorkArea.foldl_cleanupSlot_summedPairs,
    WorkArea.foldl_cleanupSlot_subtractedPairs, WorkArea.foldl_cleanupSlot_xMarginalPairs,
    WorkArea.foldl_cleanupSlot_yMarginalPairs]
  refine ⟨fun h => foldl_set_getElem? _ _ _ _ hn h, fun h => foldl_set_getElem? _ _ _ _ hn h,
    fun h => foldl_set_getElem? _ _ _ _ hn h, fun h => foldl_set_getElem? _ _ _ _ hn h,
    fun h => foldl_set_getElem? _ _ _ _ hn h, ?_, ?_, ?_, ?_, ?_⟩ <;>
  exact foldl_set_length _ _ _

/-- C1 at a work area of three slots holding arbitrary data, slot 2. -/
theorem WorkArea.cleanup_resets_every_slot_witness :
    ((2 : Nat) : Int) < 3 ∧
    (WorkArea.cleanup ⟨3, [⟨1, 2, 3⟩, ⟨0, 0, 9⟩, ⟨7, 7, 1⟩], [⟨1, 1⟩, ⟨2, 2⟩, ⟨3, 3⟩],
      [⟨4, 1⟩, ⟨5, 2⟩, ⟨6, 3⟩], [⟨1, 5⟩, ⟨2, 6⟩, ⟨3, 7⟩],
      [⟨9, 9⟩, ⟨8, 8⟩, ⟨7, 7⟩]⟩).grayPairs[2]? = some ⟨0, 0, 0⟩ :=
  ⟨by decide,
   (WorkArea.cleanup_resets_every_slot
      ⟨3, [⟨1, 2, 3⟩, ⟨0, 0, 9⟩, ⟨7, 7, 1⟩], [⟨1, 1⟩, ⟨2, 2⟩, ⟨3, 3⟩],
        [⟨4, 1⟩, ⟨5, 2⟩, ⟨6, 3⟩], [⟨1, 5⟩, ⟨2, 6⟩, ⟨3, 7⟩],
        [⟨9, 9⟩, ⟨8, 8⟩, ⟨7, 7⟩]⟩ 2 (by decide)).1 (by decide)⟩

/-! ## C2: one feature vector per requested direction, in canonical order -/

/-- C2. For every window and every direction count `n` with `1 ≤ n ≤ 4`,
`computeWindowFeatures(n)` returns exactly `n` feature vectors, and for every
`i < n` the `i`-th vector is what the `FeatureComputer` run yields with the
shift of the `i`-th direction of `Direction::getAllDirections()` (the
direction of angle `45·i` degrees, so 0, 45, 90, 135), on the same pixels,
image, window and work area (the one object, as the earlier runs left it). -/
theorem PreCuda.WindowFeatureComputer.computeWindowFeatures_per_direction {α : Type}
    (fc : FeatureRun α) (pixels : List Nat) (image : ImageData) (windowData : Window)
    (workArea : WorkArea) (n : Int) (h1 : 1 ≤ n) (h4 : n ≤ 4) :
    ∃ featureList wa,
      PreCuda.WindowFeatureComputer.computeWindowFeatures fc pixels image windowData workArea n
        = .ok (featureList, wa)
      ∧ (featureList.length : Int) = n
      ∧ ∀ i : Nat, (i : Int) < n →
          ∃ d, Direction.getAllDirections[i]? = some d ∧ d.angle = 45 * i ∧
            featureList[i]? = some (fc pixels image d.shiftRows d.shiftColumns windowData
              (PreCuda.WindowFeatureComputer.workAreaBefore fc pixels image windowData
                workArea i)).1 := by
  have hn : n = 1 ∨ n = 2 ∨ n = 3 ∨ n = 4 := by omega
  rcases hn with rfl | rfl | rfl | rfl
  · refine ⟨_, _, rfl, rfl, ?_⟩
    intro i hi
    have hcases : i = 0 := by omega
    subst hcases
    exact ⟨_, rfl, rfl, rfl⟩
  · refine ⟨_, _, rfl, rfl, ?_⟩
    intro i hi
    have hcases : i = 0 ∨ i = 1 := by omega
    rcases hcases with rfl | rfl <;> exact ⟨_, rfl, rfl, rfl⟩
  · refine ⟨_, _, rfl, rfl, ?_⟩
    intro i hi
    have hcases : i = 0 ∨ i = 1 ∨ i = 2 := by omega
    rcases hcases with rfl | rfl | rfl <;> exact ⟨_, rfl, rfl, rfl⟩
  · refine ⟨_, _, rfl, rfl, ?_⟩
    intro i hi
    have hcases : i = 0 ∨ i = 1 ∨ i = 2 ∨ i = 3 := by omega
    rcases hcases with rfl | rfl | rfl | rfl <;> exact ⟨_, rfl, rfl, rfl⟩

/-- C2 at three directions for the probe run. -/
theorem PreCuda.WindowFeatureComputer.computeWindowFeatures_per_direction_witness :
    (1 : Int) ≤ 3 ∧ (3 : Int) ≤ 4 ∧
    ∃ featureList wa,
      PreCuda.WindowFeatureComputer.computeWindowFeatures
          PreCuda.WindowFeatureComputer.probeRun [1, 2, 3, 4] ⟨2, 2, 255⟩
          ⟨2, 1, false, 0, 0, 0, 0⟩ ⟨0, [], [], [], [], []⟩ 3
        = .ok (featureList, wa)
      ∧ (featureList.length : Int) = 3 :=
  ⟨by decide, by decide,
    (PreCuda.WindowFeatureComputer.computeWindowFeatures_per_direction
      PreCuda.WindowFeatureComputer.probeRun [1, 2, 3, 4] ⟨2, 2, 255⟩
      ⟨2, 1, false, 0, 0, 0, 0⟩ ⟨0, [], [], [], [], []⟩ 3 (by decide) (by decide)).imp
      (fun _ h => h.imp (fun _ h2 => ⟨h2.1, h2.2.1⟩))⟩

/-! ## Lemmas on the sliding loops -/

/-- While the guard holds for the next `fuel` indices, the guarded loop is the
fold of its body over them. -/
theorem slideLoop_eq_foldl {σ : Type} (side limit : Int) (body : σ → Int → σ) (fuel : Nat)
    (i : Int) (s : σ) (hguard : ∀ k : Nat, k < fuel → i + k + side ≤ limit) :
    slideLoop side limit body fuel i s
      = (List.range fuel).foldl (fun acc (k : Nat) => body acc (i + (k : Int))) s := by
  induction fuel generalizing i s with
  | zero => rfl
  | succ n ih =>
    have h0 : i + side ≤ limit := by simpa using hguard 0 (by omega)
    rw [slideLoop, if_pos h0, List.range_succ_eq_map, List.foldl_cons, List.foldl_map]
    rw [ih (i + 1) (body s i) (fun k hk => by have := hguard (k + 1) (by omega); push_cast at this; omega)]
    simp only [Nat.cast_zero, add_zero, Nat.succ_eq_add_one, Nat.cast_add, Nat.cast_one]
    congr 1
    funext acc k
    congr 1
    ring

/-- The fuel `slideFuel` is exactly what the loop from 0 uses: the guard holds
below it and fails at it. -/
theorem slideFuel_guard (side limit : Int) (k : Nat) :
    k < slideFuel side limit ↔ (k : Int) + side ≤ limit := by
  unfold slideFuel; omega

/-- More fuel than `slideFuel` changes nothing: the loop stops on its guard. -/
theorem slideLoop_fuel_enough {σ : Type} (side limit : Int) (body : σ → Int → σ)
    (extra : Nat) (s : σ) :
    slideLoop side limit body (slideFuel side limit + extra) 0 s
      = slideLoop side limit body (slideFuel side limit) 0 s := by
  have key : ∀ (fuel : Nat) (i : Int) (s : σ), (limit - side + 1 - i).toNat ≤ fuel → 0 ≤ i →
      slideLoop side limit body (fuel + extra) i s = slideLoop side limit body fuel i s := by
    intro fuel
    induction fuel with
    | zero =>
      intro i s h hi
      cases extra with
      | zero => rfl
      | succ e =>
        have hneg : ¬ (i + side ≤ limit) := by omega
        simp [slideLoop, hneg]
    | succ n ih =>
      intro i s h hi
      rw [Nat.add_right_comm]
      by_cases hg : i + side ≤ limit
      · simp only [slideLoop, if_pos hg]
        exact ih _ _ (by omega) (by omega)
      · simp only [slideLoop, if_neg hg]
  exact key _ 0 s (by unfold slideFuel; simp) (le_refl 0)

/-- Pushing one element per index is appending the mapped indices. -/
theorem foldl_push_eq_append_map {β ι : Type} (g : ι → β) (l : List ι) (init : List β) :
    l.foldl (fun acc k => acc ++ [g k]) init = init ++ l.map g := by
  induction l generalizing init with
  | nil => simp
  | cons a l ih => simp [List.foldl_cons, ih]

/-- Appending one row of `nC` elements per row index lists the elements in
row-major order. -/
theorem foldl_rows_eq_rowMajor {β : Type} (g : Nat → Nat → β) (nR nC : Nat) (init : List β) :
    (List.range nR).foldl (fun acc i => acc ++ (List.range nC).map (g i)) init
      = init ++ (List.range (nR * nC)).map (fun k => g (k / nC) (k % nC)) := by
  induction nR with
  | zero => simp
  | succ m ih =>
    rw [List.range_succ, List.foldl_append, ih]
    simp only [List.foldl_cons, List.foldl_nil, List.append_assoc]
    congr 1
    rw [Nat.succ_mul, List.range_add, List.map_append, List.map_map]
    congr 1
    apply List.map_congr_left
    intro k hk
    have hk2 : k < nC := List.mem_range.mp hk
    have hpos : 0 < nC := by omega
    simp only [Function.comp]
    rw [Nat.mul_comm m nC, Nat.mul_add_div hpos, Nat.mul_add_mod, Nat.div_eq_of_lt hk2,
      Nat.mod_eq_of_lt hk2, Nat.add_zero]

/-- The feature list of `computeAllFeatures` in closed form: one entry per
window origin, row by row. -/
theorem ImageFeatureComputer.computeAllFeatures_eq_rowMajor {β : Type}
    (wfc : Image → Window → Int → β) (progArg : ProgramArguments) (img : Image) :
    ImageFeatureComputer.computeAllFeatures wfc progArg img
      = (List.range (slideFuel progArg.windowSize img.rows
            * slideFuel progArg.windowSize img.columns)).map
          (fun k => wfc img
            ((Window.new progArg.windowSize progArg.distance progArg.symmetric).setSpacialOffsets
              ((k / slideFuel progArg.windowSize img.columns : Nat) : Int)
              ((k % slideFuel progArg.windowSize img.columns : Nat) : Int))
            progArg.numberOfDirections) := by
  have inner : ∀ (fl : List β) (i : Int),
      slideLoop progArg.windowSize img.columns
        (fun featuresList j => featuresList ++
          [wfc img ((Window.new progArg.windowSize progArg.distance
            progArg.symmetric).setSpacialOffsets i j) progArg.numberOfDirections])
        (slideFuel progArg.windowSize img.columns) 0 fl
      = fl ++ (List.range (slideFuel progArg.windowSize img.columns)).map
          (fun (j : Nat) => wfc img ((Window.new progArg.windowSize progArg.distance
            progArg.symmetric).setSpacialOffsets i (j : Int)) progArg.numberOfDirections) := by
    intro fl i
    rw [slideLoop_eq_foldl _ _ _ _ _ _
      (fun k hk => by have := (slideFuel_guard progArg.windowSize img.columns k).mp hk; omega)]
    simp only [zero_add]
    exact foldl_push_eq_append_map _ _ _
  simp only [ImageFeatureComputer.computeAllFeatures, Window.new, Image.getRows,
    Image.getColumns]
  simp only [Window.new] at inner
  simp only [inner]
  rw [slideLoop_eq_foldl _ _ _ _ _ _
    (fun k hk => by have := (slideFuel_guard progArg.windowSize img.rows k).mp hk; omega)]
  simp only [zero_add]
  rw [foldl_rows_eq_rowMajor (fun i j => wfc img
    (Window.setSpacialOffsets ⟨progArg.windowSize, progArg.distance, progArg.symmetric, 0, 0, 0, 0⟩
      (i : Int) (j : Int)) progArg.numberOfDirections)]
  simp

/-- The feature list is the image of the windows handed over, in order. -/
theorem ImageFeatureComputer.computeAllFeatures_eq_map_windows {β : Type}
    (wfc : Image → Window → Int → β) (progArg : ProgramArguments) (img : Image) :
    ImageFeatureComputer.computeAllFeatures wfc progArg img
      = (ImageFeatureComputer.windowsHandedOver progArg img).map
          (fun w => wfc img w progArg.numberOfDirections) := by
  unfold ImageFeatureComputer.windowsHandedOver
  rw [ImageFeatureComputer.computeAllFeatures_eq_rowMajor,
    ImageFeatureComputer.computeAllFeatures_eq_rowMajor, List.map_map]
  rfl

/-! ## C3: windows in row-major sliding order -/

/-- C3. For an image of `R` rows and `C` columns and a window side `w` with
`1 ≤ w ≤ min R C`, `computeAllFeatures` returns exactly `(R-w+1)*(C-w+1)`
entries, and for `0 ≤ i ≤ R-w`, `0 ≤ j ≤ C-w` the entry at position
`i*(C-w+1)+j` is the result of `computeWindowFeatures(numberOfDirections)` for
the window of side `w`, the run's distance and symmetry flag, and spatial
offsets (row `i`, column `j`). -/
theorem ImageFeatureComputer.computeAllFeatures_row_major {β : Type}
    (wfc : Image → Window → Int → β) (progArg : ProgramArguments) (img : Image)
    (_h1 : 1 ≤ progArg.windowSize) (hR : progArg.windowSize ≤ img.rows)
    (hC : progArg.windowSize ≤ img.columns) :
    ((ImageFeatureComputer.computeAllFeatures wfc progArg img).length : Int)
        = (img.rows - progArg.windowSize + 1) * (img.columns - progArg.windowSize + 1)
    ∧ ∀ i j : Nat, (i : Int) ≤ img.rows - progArg.windowSize →
        (j : Int) ≤ img.columns - progArg.windowSize →
        (ImageFeatureComputer.computeAllFeatures wfc progArg img)[
            i * (img.columns - progArg.windowSize + 1).toNat + j]?
          = some (wfc img
              ((Window.new progArg.windowSize progArg.distance
                progArg.symmetric).setSpacialOffsets i j)
              progArg.numberOfDirections) := by
  rw [ImageFeatureComputer.computeAllFeatures_eq_rowMajor]
  have hnR : ((slideFuel progArg.windowSize img.rows : Nat) : Int)
      = img.rows - progArg.windowSize + 1 := by unfold slideFuel; omega
  have hnC : ((slideFuel progArg.windowSize img.columns : Nat) : Int)
      = img.columns - progArg.windowSize + 1 := by unfold slideFuel; omega
  constructor
  · rw [List.length_map, List.length_range, Nat.cast_mul, hnR, hnC]
  · intro i j hi hj
    have hi2 : i < slideFuel progArg.windowSize img.rows := by unfold slideFuel; omega
    have hj2 : j < slideFuel progArg.windowSize img.columns := by unfold slideFuel; omega
    have hfuel : (img.columns - progArg.windowSize + 1).toNat
        = slideFuel progArg.windowSize img.columns := rfl
    rw [hfuel]
    have hlt : i * slideFuel progArg.windowSize img.columns + j
        < slideFuel progArg.windowSize img.rows * slideFuel progArg.windowSize img.columns := by
      calc i * slideFuel progArg.windowSize img.columns + j
          < i * slideFuel progArg.windowSize img.columns
              + slideFuel progArg.windowSize img.columns := by omega
        _ = (i + 1) * slideFuel progArg.windowSize img.columns := by ring
        _ ≤ slideFuel progArg.windowSize img.rows
              * slideFuel progArg.windowSize img.columns :=
            Nat.mul_le_mul_right _ hi2
    have hpos : 0 < slideFuel progArg.windowSize img.columns := by omega
    rw [List.getElem?_map, List.getElem?_range hlt]
    simp only [Option.map_some']
    rw [Nat.mul_comm i, Nat.mul_add_div hpos, Nat.mul_add_mod, Nat.div_eq_of_lt hj2,
      Nat.mod_eq_of_lt hj2, Nat.add_zero]

/-- C3 on a 3x4 image with window side 2, for a window computer that reports
the offsets of the window it is given. -/
theorem ImageFeatureComputer.computeAllFeatures_row_major_witness :
    (1 : Int) ≤ 2 ∧ (2 : Int) ≤ 3 ∧ (2 : Int) ≤ 4 ∧
    ((ImageFeatureComputer.computeAllFeatures
        (fun _ w _ => (w.imageRowsOffset, w.imageColumnsOffset))
        ⟨2, 1, false, 4, false, false, ""⟩
        ⟨[0, 1, 2, 3, 4, 5, 6, 7, 8, 9, 10, 11], 3, 4, 255⟩).length : Int)
      = (3 - 2 + 1) * (4 - 2 + 1) :=
  ⟨by decide, by decide, by decide,
    (ImageFeatureComputer.computeAllFeatures_row_major
      (fun _ w _ => (w.imageRowsOffset, w.imageColumnsOffset))
      ⟨2, 1, false, 4, false, false, ""⟩
      ⟨[0, 1, 2, 3, 4, 5, 6, 7, 8, 9, 10, 11], 3, 4, 255⟩ (by decide) (by decide)
      (by decide)).1⟩

/-- The windows handed over are those of the offsets `(i, j)` below the two
loop bounds. -/
theorem ImageFeatureComputer.mem_windowsHandedOver (progArg : ProgramArguments) (img : Image)
    (win : Window) (hwin : win ∈ ImageFeatureComputer.windowsHandedOver progArg img) :
    ∃ i j : Nat, i < slideFuel progArg.windowSize img.rows
      ∧ j < slideFuel progArg.windowSize img.columns
      ∧ win = (Window.new progArg.windowSize progArg.distance
          progArg.symmetric).setSpacialOffsets i j := by
  unfold ImageFeatureComputer.windowsHandedOver at hwin
  rw [ImageFeatureComputer.computeAllFeatures_eq_rowMajor, List.mem_map] at hwin
  obtain ⟨k, hk, rfl⟩ := hwin
  have hk2 := List.mem_range.mp hk
  have hpos : 0 < slideFuel progArg.windowSize img.columns := by
    rcases Nat.eq_zero_or_pos (slideFuel progArg.windowSize img.columns) with h0 | h0
    · rw [h0, Nat.mul_zero] at hk2; omega
    · exact h0
  exact ⟨k / slideFuel progArg.windowSize img.columns,
    k % slideFuel progArg.windowSize img.columns,
    Nat.div_lt_of_lt_mul (by rwa [Nat.mul_comm] at hk2), Nat.mod_lt _ hpos, rfl⟩

/-! ## C6: the sliding loop keeps every window inside the image -/

/-- C6. For every image (`R` rows, `C` columns) and every window side `w`,
every window that `computeAllFeatures` hands to the `WindowFeatureComputer`
has side `w` and offsets `(i, j)` with `0 ≤ i`, `i + w ≤ R`, `0 ≤ j` and
`j + w ≤ C`: no window extends outside the image. -/
theorem ImageFeatureComputer.windows_inside_image (progArg : ProgramArguments) (img : Image)
    (win : Window) (hwin : win ∈ ImageFeatureComputer.windowsHandedOver progArg img) :
    win.side = progArg.windowSize
    ∧ 0 ≤ win.imageRowsOffset ∧ win.imageRowsOffset + win.side ≤ img.rows
    ∧ 0 ≤ win.imageColumnsOffset ∧ win.imageColumnsOffset + win.side ≤ img.columns := by
  obtain ⟨i, j, hi, hj, rfl⟩ := ImageFeatureComputer.mem_windowsHandedOver progArg img win hwin
  have hrow : (i : Int) + progArg.windowSize ≤ img.rows := (slideFuel_guard _ _ _).mp hi
  have hcol : (j : Int) + progArg.windowSize ≤ img.columns := (slideFuel_guard _ _ _).mp hj
  refine ⟨rfl, ?_, ?_, ?_, ?_⟩
  · exact Int.ofNat_nonneg i
  · exact hrow
  · exact Int.ofNat_nonneg j
  · exact hcol

/-- C6 on a 2x3 image with window side 2, at the window of offsets (0, 1). -/
theorem ImageFeatureComputer.windows_inside_image_witness :
    (⟨2, 1, true, 0, 0, 0, 1⟩ : Window) ∈ ImageFeatureComputer.windowsHandedOver
        ⟨2, 1, true, 4, false, false, ""⟩ ⟨[0, 1, 2, 3, 4, 5], 2, 3, 255⟩
    ∧ (0 : Int) + 2 ≤ 2 ∧ (1 : Int) + 2 ≤ 3 :=
  ⟨by decide,
    (ImageFeatureComputer.windows_inside_image ⟨2, 1, true, 4, false, false, ""⟩
      ⟨[0, 1, 2, 3, 4, 5], 2, 3, 255⟩ ⟨2, 1, true, 0, 0, 0, 1⟩ (by decide)).2.2.1,
    (ImageFeatureComputer.windows_inside_image ⟨2, 1, true, 4, false, false, ""⟩
      ⟨[0, 1, 2, 3, 4, 5], 2, 3, 255⟩ ⟨2, 1, true, 0, 0, 0, 1⟩ (by decide)).2.2.2.2⟩

/-! ## C7: a direction count outside 1..4 -/

/-- C7, refuted as stated. With `numberOfDirections = 0` the driver returns an
empty feature list instead of failing; with `numberOfDirections = 5` it runs the
four directions and then reads the direction table at index 4, past its four
entries. -/
theorem PreCuda.WindowFeatureComputer.computeWindowFeatures_bad_count_counterexample :
    PreCuda.WindowFeatureComputer.computeWindowFeatures
        PreCuda.WindowFeatureComputer.probeRun [1, 2, 3, 4] ⟨2, 2, 255⟩
        ⟨2, 1, false, 0, 0, 0, 0⟩ ⟨0, [], [], [], [], []⟩ 0
      = .ok ([], ⟨0, [], [], [], [], []⟩)
    ∧ PreCuda.WindowFeatureComputer.computeWindowFeatures
        PreCuda.WindowFeatureComputer.probeRun [1, 2, 3, 4] ⟨2, 2, 255⟩
        ⟨2, 1, false, 0, 0, 0, 0⟩ ⟨0, [], [], [], [], []⟩ 5
      = .error Fault.indexOutOfRange :=
  ⟨rfl, rfl⟩

/-- C7 as amended. `computeWindowFeatures` does not check the direction count:
for `numberOfDirections = 0` it returns the empty feature list, runs no
`FeatureComputer` and leaves the work area as it was; for
`numberOfDirections < 0` it returns no feature list, the construction of the
result vector from the negative count fails before any direction is read. -/
theorem PreCuda.WindowFeatureComputer.computeWindowFeatures_unchecked_count {α : Type}
    (fc : FeatureRun α) (pixels : List Nat) (image : ImageData) (windowData : Window)
    (workArea : WorkArea) :
    PreCuda.WindowFeatureComputer.computeWindowFeatures fc pixels image windowData workArea 0
      = .ok ([], workArea)
    ∧ ∀ n : Int, n < 0 →
        PreCuda.WindowFeatureComputer.computeWindowFeatures fc pixels image windowData
          workArea n = .error Fault.lengthError := by
  refine ⟨rfl, fun n hn => ?_⟩
  unfold PreCuda.WindowFeatureComputer.computeWindowFeatures
  rw [if_pos hn]

/-- C7 as amended, at the direction count -1. -/
theorem PreCuda.WindowFeatureComputer.computeWindowFeatures_unchecked_count_witness :
    (-1 : Int) < 0 ∧
    PreCuda.WindowFeatureComputer.computeWindowFeatures
        PreCuda.WindowFeatureComputer.probeRun [1, 2, 3, 4] ⟨2, 2, 255⟩
        ⟨2, 1, false, 0, 0, 0, 0⟩ ⟨0, [], [], [], [], []⟩ (-1)
      = .error Fault.lengthError :=
  ⟨by decide,
    (PreCuda.WindowFeatureComputer.computeWindowFeatures_unchecked_count
      PreCuda.WindowFeatureComputer.probeRun [1, 2, 3, 4] ⟨2, 2, 255⟩
      ⟨2, 1, false, 0, 0, 0, 0⟩ ⟨0, [], [], [], [], []⟩).2 (-1) (by decide)⟩

/-! ## C10 and C8: the option check -/

/-- C10. `checkOptionCompatibility` leaves
`windowSize = min (windowSize before) (min rows columns)` and every other
option as it was; in particular nothing changes when `windowSize` already is
at most `min rows columns`. -/
theorem checkOptionCompatibility_clamps_window_only (progArg : ProgramArguments) (img : Image) :
    (checkOptionCompatibility progArg img).1
      = { progArg with windowSize := min progArg.windowSize (min img.rows img.columns) }
    ∧ (progArg.windowSize ≤ min img.rows img.columns →
        (checkOptionCompatibility progArg img).1 = progArg) := by
  unfold checkOptionCompatibility Image.getRows Image.getColumns
  by_cases hcr : img.columns < img.rows
  · simp only [if_pos hcr]
    by_cases hw : progArg.windowSize > img.columns
    · simp only [if_pos hw]
      refine ⟨?_, fun h => ?_⟩
      · congr 1; omega
      · exfalso; omega
    · simp only [if_neg hw]
      refine ⟨?_, fun _ => trivial⟩
      have : min progArg.windowSize (min img.rows img.columns) = progArg.windowSize := by omega
      rw [this]
  · simp only [if_neg hcr]
    by_cases hw : progArg.windowSize > img.rows
    · simp only [if_pos hw]
      refine ⟨?_, fun h => ?_⟩
      · congr 1; omega
      · exfalso; omega
    · simp only [if_neg hw]
      refine ⟨?_, fun _ => trivial⟩
      have : min progArg.windowSize (min img.rows img.columns) = progArg.windowSize := by omega
      rw [this]

/-- C10 for a window side 3 on a 5x4 image. -/
theorem checkOptionCompatibility_clamps_window_only_witness :
    (3 : Int) ≤ min 5 4 ∧
    (checkOptionCompatibility ⟨3, 1, true, 4, false, true, "img.png"⟩
        ⟨[], 5, 4, 255⟩).1 = ⟨3, 1, true, 4, false, true, "img.png"⟩ :=
  ⟨by decide,
    (checkOptionCompatibility_clamps_window_only ⟨3, 1, true, 4, false, true, "img.png"⟩
      ⟨[], 5, 4, 255⟩).2 (by decide)⟩

/-- C8, refuted as stated. On a 1x1 image with `windowSize = 0` the option check
prints nothing and changes nothing, and `computeAllFeatures` computes the
features of four windows of side 0, at the offsets (0,0), (0,1), (1,0), (1,1). -/
theorem ImageFeatureComputer.nonpositive_window_side_counterexample :
    ImageFeatureComputer.checkAndComputeAllFeatures
        (fun _ w _ => (w.side, w.imageRowsOffset, w.imageColumnsOffset))
        ⟨0, 1, false, 4, false, false, ""⟩ ⟨[7], 1, 1, 255⟩
      = ([], [(0, 0, 0), (0, 0, 1), (0, 1, 0), (0, 1, 1)]) := by
  decide

/-- C8 as amended. A non-positive window side is not rejected. For every image
with `rows ≥ 0` and `columns ≥ 0` and every `windowSize ≤ 0`,
`checkOptionCompatibility` prints nothing and leaves the options as they were,
and the run goes on to `computeAllFeatures` with that window side. For
`windowSize = 0`, when `(rows + 1) * (columns + 1)` is at most `2^31 - 1` (so
that the `int` counters and products of the source hold their values),
`computeAllFeatures` computes the features of `(rows + 1) * (columns + 1) ≥ 1`
windows of side 0. -/
theorem ImageFeatureComputer.nonpositive_window_side_slides {β : Type}
    (wfc : Image → Window → Int → β) (progArg : ProgramArguments) (img : Image)
    (hw : progArg.windowSize ≤ 0) (hR : 0 ≤ img.rows) (hC : 0 ≤ img.columns) :
    (ImageFeatureComputer.checkAndComputeAllFeatures wfc progArg img).1 = []
    ∧ (ImageFeatureComputer.checkAndComputeAllFeatures wfc progArg img).2
        = ImageFeatureComputer.computeAllFeatures wfc progArg img
    ∧ (progArg.windowSize = 0 → (img.rows + 1) * (img.columns + 1) ≤ 2 ^ 31 - 1 →
        ((ImageFeatureComputer.checkAndComputeAllFeatures wfc progArg img).2.length : Int)
            = (img.rows + 1) * (img.columns + 1)
        ∧ 1 ≤ (ImageFeatureComputer.checkAndComputeAllFeatures wfc progArg img).2.length
        ∧ ∀ win ∈ ImageFeatureComputer.windowsHandedOver progArg img, win.side = 0) := by
  have hcheck : checkOptionCompatibility progArg img = (progArg, []) := by
    unfold checkOptionCompatibility Image.getRows Image.getColumns
    by_cases hcr : img.columns < img.rows
    · rw [if_pos hcr, if_neg (by omega)]
    · rw [if_neg hcr, if_neg (by omega)]
  have hlen : (ImageFeatureComputer.computeAllFeatures wfc progArg img).length
      = slideFuel progArg.windowSize img.rows * slideFuel progArg.windowSize img.columns := by
    rw [ImageFeatureComputer.computeAllFeatures_eq_rowMajor, List.length_map, List.length_range]
  simp only [ImageFeatureComputer.checkAndComputeAllFeatures, hcheck]
  refine ⟨trivial, trivial, fun hzero _ => ?_⟩
  have hnR : ((slideFuel progArg.windowSize img.rows : Nat) : Int) = img.rows + 1 := by
    unfold slideFuel; omega
  have hnC : ((slideFuel progArg.windowSize img.columns : Nat) : Int) = img.columns + 1 := by
    unfold slideFuel; omega
  refine ⟨?_, ?_, fun win hwin => ?_⟩
  · rw [hlen, Nat.cast_mul, hnR, hnC]
  · rw [hlen]
    exact Nat.mul_pos (by omega) (by omega)
  · obtain ⟨i, j, -, -, rfl⟩ := ImageFeatureComputer.mem_windowsHandedOver progArg img win hwin
    exact hzero

/-- C8 as amended, on a 2x3 image with `windowSize = 0`: twelve windows. -/
theorem ImageFeatureComputer.nonpositive_window_side_slides_witness :
    (0 : Int) ≤ 0 ∧ (0 : Int) ≤ 2 ∧ (0 : Int) ≤ 3 ∧ ((2 : Int) + 1) * (3 + 1) ≤ 2 ^ 31 - 1 ∧
    (((ImageFeatureComputer.checkAndComputeAllFeatures
        (fun _ w _ => (w.imageRowsOffset, w.imageColumnsOffset))
        ⟨0, 1, false, 4, false, false, ""⟩ ⟨[0, 1, 2, 3, 4, 5], 2, 3, 255⟩).2.length : Int)
      = (2 + 1) * (3 + 1)) :=
  ⟨by decide, by decide, by decide, by decide,
    ((ImageFeatureComputer.nonpositive_window_side_slides
      (fun _ w _ => (w.imageRowsOffset, w.imageColumnsOffset))
      ⟨0, 1, false, 4, false, false, ""⟩ ⟨[0, 1, 2, 3, 4, 5], 2, 3, 255⟩
      (by decide) (by decide) (by decide)).2.2 rfl (by decide)).1⟩

/-! ## Lemmas on loops that can fail -/

/-- An invariant that every iteration re-establishes holds after a counted
loop, and the loop does not fail. -/
theorem foldlM_range_invariant {σ : Type} (step : σ → Nat → Except Fault σ)
    (Inv : Nat → σ → Prop) (n : Nat) (s0 : σ) (h0 : Inv 0 s0)
    (hstep : ∀ k, k < n → ∀ s, Inv k s → ∃ s', step s k = .ok s' ∧ Inv (k + 1) s') :
    ∃ s, (List.range n).foldlM step s0 = .ok s ∧ Inv n s := by
  induction n with
  | zero => exact ⟨s0, rfl, h0⟩
  | succ m ih =>
    obtain ⟨s, hs, hinv⟩ := ih (fun k hk => hstep k (by omega))
    obtain ⟨s', hs', hinv'⟩ := hstep m (by omega) s hinv
    refine ⟨s', ?_, hinv'⟩
    rw [List.range_succ, List.foldlM_append, hs]
    show (List.foldlM step s [m]) = _
    rw [List.foldlM_cons, hs']
    rfl

/-! ## Lemmas on the transposition -/

/-- A series of the first `m` windows followed by the value of window `m` is a
series of the first `m + 1` windows. -/
theorem ImageFeatureComputer.SeriesOk.push {α : Type} {imageFeatures : List (List (List α))}
    {j f m : Nat} {series : List α} {wf : List (List α)} {v : List α} {x : α}
    (hs : ImageFeatureComputer.SeriesOk imageFeatures j f m series)
    (hwf : imageFeatures[m]? = some wf) (hv : wf[j]? = some v) (hx : v[f]? = some x) :
    ImageFeatureComputer.SeriesOk imageFeatures j f (m + 1) (series ++ [x]) := by
  obtain ⟨hlen, hval⟩ := hs
  refine ⟨by simp [hlen], fun i hi => ?_⟩
  by_cases him : i < m
  · obtain ⟨wf', v', x', h1, h2, h3, h4⟩ := hval i him
    refine ⟨wf', v', x', h1, h2, h3, ?_⟩
    rw [List.getElem?_append_left (by omega)]
    exact h4
  · have hi2 : i = m := by omega
    subst hi2
    refine ⟨wf, v, x, hwf, hv, hx, ?_⟩
    rw [List.getElem?_append_right (by omega)]
    simp [hlen]

/-- One push of the innermost loop moves feature `k` to `m + 1` windows. -/
theorem ImageFeatureComputer.pushFeatureValue_spec {α : Type}
    (imageFeatures : List (List (List α))) (F D j m k : Nat) (fid : List (List α))
    (himg : ∀ wf ∈ imageFeatures, D ≤ wf.length ∧ ∀ v ∈ wf, v.length = F)
    (hj : j < D) (hm : m < imageFeatures.length) (hk : k < F)
    (hinv : ImageFeatureComputer.DirectionOk imageFeatures F j m k fid) :
    ∃ fid', ImageFeatureComputer.pushFeatureValue imageFeatures m j fid k = .ok fid'
      ∧ ImageFeatureComputer.DirectionOk imageFeatures F j m (k + 1) fid' := by
  obtain ⟨hlen, hser⟩ := hinv
  obtain ⟨series, hfid, hok⟩ := hser k hk
  rw [if_neg (Nat.lt_irrefl k)] at hok
  have hwf : imageFeatures[m]? = some imageFeatures[m] := List.getElem?_eq_getElem hm
  obtain ⟨hD, hF⟩ := himg _ (List.getElem_mem hm)
  have hjlt : j < (imageFeatures[m]).length := by omega
  have hv : (imageFeatures[m])[j]? = some (imageFeatures[m])[j] := List.getElem?_eq_getElem hjlt
  have hvlen : ((imageFeatures[m])[j]).length = F := hF _ (List.getElem_mem hjlt)
  have hklt : k < ((imageFeatures[m])[j]).length := by omega
  have hx : ((imageFeatures[m])[j])[k]? = some ((imageFeatures[m])[j])[k] :=
    List.getElem?_eq_getElem hklt
  refine ⟨fid.set k (series ++ [((imageFeatures[m])[j])[k]]), ?_, ?_, ?_⟩
  · simp only [ImageFeatureComputer.pushFeatureValue, hfid, hwf, hv, hx]
  · simp [hlen]
  · intro f hf
    by_cases hfk : f = k
    · subst hfk
      refine ⟨series ++ [((imageFeatures[m])[j])[f]], ?_, ?_⟩
      · rw [List.getElem?_set_self (by omega)]
      · rw [if_pos (Nat.lt_succ_self f)]
        exact hok.push hwf hv hx
    · obtain ⟨s, hs1, hs2⟩ := hser f hf
      refine ⟨s, ?_, ?_⟩
      · rw [List.getElem?_set_ne (Ne.symm hfk)]
        exact hs1
      · have hiff : (f < k + 1) = (f < k) := by
          apply propext; constructor <;> intro h <;> omega
        simpa only [hiff] using hs2

/-- The loop over the features moves every series from `m` to `m + 1` windows. -/
theorem ImageFeatureComputer.pushWindowValues_spec {α : Type}
    (imageFeatures : List (List (List α))) (F D j m : Nat) (fid : List (List α))
    (himg : ∀ wf ∈ imageFeatures, D ≤ wf.length ∧ ∀ v ∈ wf, v.length = F)
    (hj : j < D) (hm : m < imageFeatures.length)
    (hinv : ImageFeatureComputer.DirectionOk imageFeatures F j m 0 fid) :
    ∃ fid', ImageFeatureComputer.pushWindowValues (List.range F) imageFeatures j fid m
        = .ok fid'
      ∧ ImageFeatureComputer.DirectionOk imageFeatures F j (m + 1) 0 fid' := by
  unfold ImageFeatureComputer.pushWindowValues
  rw [List.length_range]
  obtain ⟨fid', hrun, hfin⟩ := foldlM_range_invariant
    (fun fid k =>
      match (List.range F)[k]? with
      | none => Except.error Fault.indexOutOfRange
      | some actualFeature =>
        ImageFeatureComputer.pushFeatureValue imageFeatures m j fid actualFeature)
    (fun k fid => ImageFeatureComputer.DirectionOk imageFeatures F j m k fid) F fid hinv
    (fun k hk s hs => by
      simp only [List.getElem?_range hk]
      exact ImageFeatureComputer.pushFeatureValue_spec imageFeatures F D j m k s himg hj hm hk hs)
  refine ⟨fid', hrun, hfin.1, fun f hf => ?_⟩
  obtain ⟨s, hs1, hs2⟩ := hfin.2 f hf
  rw [if_pos hf] at hs2
  exact ⟨s, hs1, by simpa using hs2⟩

/-- The body of the loop over the directions stores, at `output[j]`, the `F`
series of direction `j` over all windows. -/
theorem ImageFeatureComputer.collectDirection_spec {α : Type}
    (imageFeatures : List (List (List α))) (F D j : Nat) (output : List (List (List α)))
    (himg : ∀ wf ∈ imageFeatures, D ≤ wf.length ∧ ∀ v ∈ wf, v.length = F)
    (hj : j < D) :
    ∃ fid, ImageFeatureComputer.collectDirection (List.range F) imageFeatures output j
        = .ok (output.set j fid)
      ∧ ImageFeatureComputer.DirectionOk imageFeatures F j imageFeatures.length 0 fid := by
  obtain ⟨fid, hrun, hfin⟩ := foldlM_range_invariant
    (ImageFeatureComputer.pushWindowValues (List.range F) imageFeatures j)
    (fun m fid => ImageFeatureComputer.DirectionOk imageFeatures F j m 0 fid)
    imageFeatures.length (List.replicate F [])
    ⟨by simp, fun f hf => ⟨[], by simp [hf], by
      simp [ImageFeatureComputer.SeriesOk]⟩⟩
    (fun m hm s hs =>
      ImageFeatureComputer.pushWindowValues_spec imageFeatures F D j m s himg hj hm hs)
  refine ⟨fid, ?_, hfin⟩
  unfold ImageFeatureComputer.collectDirection
  rw [List.length_range, hrun]

/-! ## C9: the transposition of the feature values -/

/-- C9. For every list `imageFeatures` of `W` window results, each holding at
least `D = numberOfDirections` direction vectors of `F` values, and supported
feature names enumerating `0 .. F-1`, `getAllDirectionsAllFeatureValues`
returns exactly `D` entries, each with exactly `F` feature series, each series
with exactly `W` values, and `output[j][f][i] = imageFeatures[i][j][f]` for
every `i < W`, `j < D`, `f < F`. -/
theorem ImageFeatureComputer.getAllDirectionsAllFeatureValues_transposes {α : Type}
    (supportedFeatures : List Nat) (progArg : ProgramArguments)
    (imageFeatures : List (List (List α))) (D F : Nat)
    (hsup : supportedFeatures = List.range F)
    (hdirs : progArg.numberOfDirections = (D : Int))
    (himg : ∀ wf ∈ imageFeatures, D ≤ wf.length ∧ ∀ v ∈ wf, v.length = F) :
    ∃ output,
      ImageFeatureComputer.getAllDirectionsAllFeatureValues supportedFeatures progArg
        imageFeatures = .ok output
      ∧ output.length = D
      ∧ ∀ j, j < D → ∃ featuresInDirection,
          output[j]? = some featuresInDirection
          ∧ featuresInDirection.length = F
          ∧ ∀ f, f < F → ∃ series,
              featuresInDirection[f]? = some series
              ∧ series.length = imageFeatures.length
              ∧ ∀ i, i < imageFeatures.length → ∃ wf v x,
                  imageFeatures[i]? = some wf ∧ wf[j]? = some v ∧ v[f]? = some x
                  ∧ series[i]? = some x := by
  subst hsup
  unfold ImageFeatureComputer.getAllDirectionsAllFeatureValues
  simp only [hdirs]
  rw [if_neg (by omega), Int.toNat_ofNat]
  obtain ⟨output, hrun, hlen, hfin⟩ := foldlM_range_invariant
    (ImageFeatureComputer.collectDirection (List.range F) imageFeatures)
    (fun m (output : List (List (List α))) => output.length = D ∧ ∀ j, j < m →
      ∃ fid, output[j]? = some fid
        ∧ ImageFeatureComputer.DirectionOk imageFeatures F j imageFeatures.length 0 fid)
    D (List.replicate D []) ⟨by simp, fun j hj => by omega⟩
    (fun m hm s hs => by
      obtain ⟨fid, hrun, hok⟩ :=
        ImageFeatureComputer.collectDirection_spec imageFeatures F D m s himg hm
      refine ⟨s.set m fid, hrun, by simp [hs.1], fun j hj => ?_⟩
      by_cases hjm : j = m
      · subst hjm
        exact ⟨fid, by rw [List.getElem?_set_self (by omega)], hok⟩
      · obtain ⟨fid', h1, h2⟩ := hs.2 j (by omega)
        exact ⟨fid', by rw [List.getElem?_set_ne (Ne.symm hjm)]; exact h1, h2⟩)
  refine ⟨output, hrun, hlen, fun j hj => ?_⟩
  obtain ⟨fid, hfid, hflen, hser⟩ := hfin j hj
  refine ⟨fid, hfid, hflen, fun f hf => ?_⟩
  obtain ⟨series, hs1, hs2⟩ := hser f hf
  rw [if_neg (Nat.not_lt_zero f)] at hs2
  exact ⟨series, hs1, hs2.1, hs2.2⟩

/-- C9 on two windows, two directions and three features. -/
theorem ImageFeatureComputer.getAllDirectionsAllFeatureValues_transposes_witness :
    [0, 1, 2] = List.range 3
    ∧ (2 : Int) = ((2 : Nat) : Int)
    ∧ (∀ wf ∈ ([[[1, 2, 3], [4, 5, 6]], [[7, 8, 9], [10, 11, 12]]] : List (List (List Nat))),
        2 ≤ wf.length ∧ ∀ v ∈ wf, v.length = 3)
    ∧ ∃ output,
        ImageFeatureComputer.getAllDirectionsAllFeatureValues [0, 1, 2]
          ⟨2, 1, false, 2, false, false, ""⟩
          ([[[1, 2, 3], [4, 5, 6]], [[7, 8, 9], [10, 11, 12]]] : List (List (List Nat)))
          = .ok output
        ∧ output.length = 2 :=
  ⟨by decide, by decide, by decide,
    (ImageFeatureComputer.getAllDirectionsAllFeatureValues_transposes [0, 1, 2]
      ⟨2, 1, false, 2, false, false, ""⟩
      ([[[1, 2, 3], [4, 5, 6]], [[7, 8, 9], [10, 11, 12]]] : List (List (List Nat))) 2 3
      (by decide) (by decide) (by decide)).imp (fun _ h => ⟨h.1, h.2.1⟩)⟩

/-- The transposition of the witness data, evaluated. -/
theorem ImageFeatureComputer.getAllDirectionsAllFeatureValues_example :
    ImageFeatureComputer.getAllDirectionsAllFeatureValues [0, 1, 2]
        ⟨2, 1, false, 2, false, false, ""⟩
        ([[[1, 2, 3], [4, 5, 6]], [[7, 8, 9], [10, 11, 12]]] : List (List (List Nat)))
      = .ok [[[1, 7], [2, 8], [3, 9]], [[4, 10], [5, 11], [6, 12]]] := by
  rfl

/-! ## Lemmas on the find-or-insert tables -/

/-- A loop that did not fail kept an invariant that every successful iteration
keeps. -/
theorem foldlM_range_preserves {σ : Type} (step : σ → Nat → Except Fault σ)
    (Inv : Nat → σ → Prop) (n : Nat) (s0 s : σ) (h0 : Inv 0 s0)
    (hstep : ∀ k, k < n → ∀ t t', Inv k t → step t k = .ok t' → Inv (k + 1) t')
    (hrun : (List.range n).foldlM step s0 = .ok s) : Inv n s := by
  induction n generalizing s with
  | zero =>
    have hs : s0 = s := by simpa [List.foldlM_nil, pure, Except.pure] using hrun
    exact hs ▸ h0
  | succ m ih =>
    rw [List.range_succ, List.foldlM_append] at hrun
    cases hmid : (List.range m).foldlM step s0 with
    | error e => rw [hmid] at hrun; cases hrun
    | ok mid =>
      rw [hmid] at hrun
      have hlast : step mid m = .ok s := by
        have h2 : (List.foldlM step mid [m]) = .ok s := hrun
        rw [List.foldlM_cons] at h2
        cases hst : step mid m with
        | error e => rw [hst] at h2; cases h2
        | ok t =>
          rw [hst] at h2
          have : t = s := by simpa [List.foldlM_nil, pure, Except.pure, bind, Except.bind] using h2
          rw [this]
      exact hstep m (by omega) mid s (ih mid (fun k hk => hstep k (by omega)) hmid) hlast

/-- Overwriting an occupied slot changes the sum by the difference of the two
measures. -/
theorem GLCM.tableSum_set_lt {E : Type} (measure : E → Nat) (l : List E) (p n : Nat) (e e' : E)
    (hp : p < n) (he : l[p]? = some e) :
    GLCM.tableSum measure (l.set p e') n + measure e
      = GLCM.tableSum measure l n + measure e' := by
  unfold GLCM.tableSum
  induction l generalizing p n with
  | nil => simp at he
  | cons a t ih =>
    cases n with
    | zero => omega
    | succ n' =>
      cases p with
      | zero =>
        simp only [List.getElem?_cons_zero, Option.some.injEq] at he
        subst he
        simp only [List.set_cons_zero, List.take_succ_cons, List.map_cons, List.sum_cons]
        omega
      | succ p' =>
        simp only [List.getElem?_cons_succ] at he
        simp only [List.set_cons_succ, List.take_succ_cons, List.map_cons, List.sum_cons]
        have := ih p' n' (by omega) he
        omega

/-- Writing the first free slot and counting it adds the measure of the new
element. -/
theorem GLCM.tableSum_set_succ {E : Type} (measure : E → Nat) (l : List E) (n : Nat) (e' : E)
    (hn : n < l.length) :
    GLCM.tableSum measure (l.set n e') (n + 1) = GLCM.tableSum measure l n + measure e' := by
  unfold GLCM.tableSum
  induction l generalizing n with
  | nil => simp at hn
  | cons a t ih =>
    cases n with
    | zero => simp
    | succ n' =>
      simp only [List.length_cons] at hn
      simp only [List.set_cons_succ, List.take_succ_cons, List.map_cons, List.sum_cons]
      have := ih n' (by omega)
      omega

/-- Counting one more slot adds the measure of that slot. -/
theorem GLCM.tableSum_succ {E : Type} (measure : E → Nat) (l : List E) (n : Nat) (e : E)
    (he : l[n]? = some e) :
    GLCM.tableSum measure l (n + 1) = GLCM.tableSum measure l n + measure e := by
  unfold GLCM.tableSum
  rw [List.take_succ, he]
  simp

/-- Find-or-insert adds the measure of the inserted element to the sum over
the occupied slots, for every measure that the merge adds up. -/
theorem GLCM.findOrInsert_tableSum {E : Type} (sameKey : E → E → Bool) (merge : E → E → E)
    (measure : E → Nat) (l : List E) (actual : E) (last : Nat) (l' : List E) (last' : Nat)
    (hmerge : ∀ e, sameKey e actual = true → measure (merge e actual) = measure e + measure actual)
    (hrun : GLCM.findOrInsert sameKey merge l actual last = .ok (l', last')) :
    GLCM.tableSum measure l' last' = GLCM.tableSum measure l last + measure actual := by
  unfold GLCM.findOrInsert at hrun
  split at hrun
  · rename_i position hfind
    have hpred := List.find?_some hfind
    have hmem := List.mem_range.mp (List.mem_of_find?_eq_some hfind)
    split at hrun
    · rename_i e he
      simp only [Except.ok.injEq, Prod.mk.injEq] at hrun
      obtain ⟨rfl, rfl⟩ := hrun
      rw [he] at hpred
      have hkey : sameKey e actual = true := by simpa using hpred
      have h1 := GLCM.tableSum_set_lt measure l position last e (merge e actual) hmem he
      rw [hmerge e hkey] at h1
      omega
    · cases hrun
  · split at hrun
    · rename_i hlt
      simp only [Except.ok.injEq, Prod.mk.injEq] at hrun
      obtain ⟨rfl, rfl⟩ := hrun
      exact GLCM.tableSum_set_succ measure l last actual hlt
    · cases hrun

/-- The last iteration of a counted loop that did not fail. -/
theorem foldlM_range_succ_ok {σ : Type} (step : σ → Nat → Except Fault σ) (m : Nat) (s0 s : σ)
    (hrun : (List.range (m + 1)).foldlM step s0 = .ok s) :
    ∃ mid, (List.range m).foldlM step s0 = .ok mid ∧ step mid m = .ok s := by
  rw [List.range_succ, List.foldlM_append] at hrun
  cases hmid : (List.range m).foldlM step s0 with
  | error e => rw [hmid] at hrun; cases hrun
  | ok mid =>
    rw [hmid] at hrun
    refine ⟨mid, rfl, ?_⟩
    have h2 : (List.foldlM step mid [m]) = .ok s := hrun
    rw [List.foldlM_cons] at h2
    cases hst : step mid m with
    | error e => rw [hst] at h2; cases h2
    | ok t =>
      rw [hst] at h2
      have : t = s := by simpa [List.foldlM_nil, pure, Except.pure, bind, Except.bind] using h2
      rw [this]

/-- Two loops over the same indices that did not fail kept a relation that
every pair of successful iterations keeps. -/
theorem foldlM_range_related {σ τ : Type} (f : σ → Nat → Except Fault σ)
    (g : τ → Nat → Except Fault τ) (R : σ → τ → Prop) (n : Nat) (s0 s : σ) (t0 t : τ)
    (h0 : R s0 t0)
    (hstep : ∀ k, k < n → ∀ a a' b b', R a b → f a k = .ok a' → g b k = .ok b' → R a' b')
    (hf : (List.range n).foldlM f s0 = .ok s) (hg : (List.range n).foldlM g t0 = .ok t) :
    R s t := by
  induction n generalizing s t with
  | zero =>
    have hs : s0 = s := by simpa [List.foldlM_nil, pure, Except.pure] using hf
    have ht : t0 = t := by simpa [List.foldlM_nil, pure, Except.pure] using hg
    exact hs ▸ ht ▸ h0
  | succ m ih =>
    obtain ⟨smid, hs1, hs2⟩ := foldlM_range_succ_ok f m s0 s hf
    obtain ⟨tmid, ht1, ht2⟩ := foldlM_range_succ_ok g m t0 t hg
    exact hstep m (by omega) smid s tmid t
      (ih smid tmid (fun k hk => hstep k (by omega)) hs1 ht1) hs2 ht2

/-- One insertion of a gray pair of frequency 1 adds 1 to the total frequency
of the occupied slots. -/
theorem GLCM.insertGrayPair_frequency (l : List GrayPair) (a : GrayPair) (last : Nat)
    (l' : List GrayPair) (last' : Nat) (ha : a.frequency = 1)
    (hrun : GLCM.insertGrayPair l a last = .ok (l', last')) :
    GLCM.tableSum GrayPair.frequency l' last' = GLCM.tableSum GrayPair.frequency l last + 1 := by
  have h := GLCM.findOrInsert_tableSum GrayPair.sameLevels
    (fun e _ => { e with frequency := e.frequency + 1 }) GrayPair.frequency l a last l' last'
    (fun e _ => by simp [ha]) hrun
  rw [h, ha]

/-- One insertion of a gray pair of frequency 1 adds 1 to the frequency
recorded for its own pair of gray levels and nothing to the others. -/
theorem GLCM.insertGrayPair_frequencyAt (i j : Nat) (l : List GrayPair) (a : GrayPair)
    (last : Nat) (l' : List GrayPair) (last' : Nat) (ha : a.frequency = 1)
    (hrun : GLCM.insertGrayPair l a last = .ok (l', last')) :
    GLCM.tableSum (GrayPair.frequencyAt i j) l' last'
      = GLCM.tableSum (GrayPair.frequencyAt i j) l last
        + (if a.grayLevelI = i ∧ a.grayLevelJ = j then 1 else 0) := by
  have h := GLCM.findOrInsert_tableSum GrayPair.sameLevels
    (fun e _ => { e with frequency := e.frequency + 1 }) (GrayPair.frequencyAt i j)
    l a last l' last'
    (fun e he => by
      simp only [GrayPair.sameLevels, Bool.and_eq_true, beq_iff_eq] at he
      simp only [GrayPair.frequencyAt, he.1, he.2, ha]
      split <;> rfl) hrun
  rw [h]
  simp only [GrayPair.frequencyAt, ha]

/-- What `insertElement` adds to a sum over the occupied slots: one insertion,
and the mirrored one in symmetric mode. -/
theorem GLCM.insertElement_cases (l : List GrayPair) (a : GrayPair) (last : Nat)
    (symmetricity : Bool) (l' : List GrayPair) (last' : Nat)
    (hrun : GLCM.insertElement l a last symmetricity = .ok (l', last')) :
    ∃ l1 last1, GLCM.insertGrayPair l a last = .ok (l1, last1) ∧
      ((symmetricity = false ∧ l' = l1 ∧ last' = last1) ∨
       (symmetricity = true ∧
          GLCM.insertGrayPair l1 ⟨a.grayLevelJ, a.grayLevelI, a.frequency⟩ last1
            = .ok (l', last'))) := by
  unfold GLCM.insertElement at hrun
  split at hrun
  · cases hrun
  · rename_i l1 last1 h1
    refine ⟨l1, last1, h1, ?_⟩
    cases symmetricity with
    | false =>
      simp only [Bool.false_eq_true, if_false, Except.ok.injEq, Prod.mk.injEq] at hrun
      exact Or.inl ⟨rfl, hrun.1.symm, hrun.2.symm⟩
    | true =>
      simp only [if_true] at hrun
      exact Or.inr ⟨rfl, hrun⟩

/-- What one iteration of the collecting loops did when it did not fail. -/
theorem GLCM.collectPair_ok (pixels : List Nat) (img : ImageData) (windowData : Window)
    (i : Nat) (st st' : GLCM.Elements) (j : Nat)
    (hrun : GLCM.collectPair pixels img windowData i st j = .ok st') :
    ∃ x y l' last',
      GLCM.readPixel pixels (GLCM.getReferenceIndex img windowData i j
        (GLCM.computeWindowRowOffset windowData) (GLCM.computeWindowColumnOffset windowData))
        = .ok x
      ∧ GLCM.readPixel pixels (GLCM.getNeighborIndex img windowData i j
        (GLCM.computeWindowColumnOffset windowData)) = .ok y
      ∧ GLCM.insertElement st.grayPairs ⟨x, y, 1⟩ st.lastInsertionPosition windowData.symmetric
        = .ok (l', last')
      ∧ st' = ⟨l', last', st.numberOfPairs + (if windowData.symmetric then 2 else 1)⟩ := by
  unfold GLCM.collectPair at hrun
  simp only at hrun
  split at hrun
  · cases hrun
  · rename_i x hx
    split at hrun
    · cases hrun
    · rename_i y hy
      split at hrun
      · cases hrun
      · rename_i l' last' hins
        simp only [Except.ok.injEq] at hrun
        exact ⟨x, y, l', last', hx, hy, hins, hrun.symm⟩

/-- One iteration of the collecting loops keeps the running `numberOfPairs`
equal to the total frequency of the occupied slots. -/
theorem GLCM.collectPair_partition (pixels : List Nat) (img : ImageData) (windowData : Window)
    (i : Nat) (st st' : GLCM.Elements) (j : Nat)
    (hinv : GLCM.tableSum GrayPair.frequency st.grayPairs st.lastInsertionPosition
      = st.numberOfPairs)
    (hrun : GLCM.collectPair pixels img windowData i st j = .ok st') :
    GLCM.tableSum GrayPair.frequency st'.grayPairs st'.lastInsertionPosition
      = st'.numberOfPairs := by
  obtain ⟨x, y, l', last', -, -, hins, rfl⟩ := GLCM.collectPair_ok _ _ _ _ _ _ _ hrun
  obtain ⟨l1, last1, h1, hcase⟩ := GLCM.insertElement_cases _ _ _ _ _ _ hins
  have hfirst := GLCM.insertGrayPair_frequency _ _ _ _ _ rfl h1
  rcases hcase with ⟨hsym, rfl, rfl⟩ | ⟨hsym, h2⟩
  · simp only [hsym, Bool.false_eq_true, if_false]
    omega
  · have hsecond := GLCM.insertGrayPair_frequency _ _ _ _ _ rfl h2
    simp only [hsym, if_true]
    omega

/-- After `initializeGlcmElements`, `numberOfPairs` is the total frequency of
the effective gray pairs. -/
theorem GLCM.initializeGlcmElements_partition (pixels : List Nat) (img : ImageData)
    (windowData : Window) (grayPairs : List GrayPair) (st : GLCM.Elements)
    (hrun : GLCM.initializeGlcmElements pixels img windowData grayPairs = .ok st) :
    GLCM.tableSum GrayPair.frequency st.grayPairs st.lastInsertionPosition
      = st.numberOfPairs := by
  unfold GLCM.initializeGlcmElements at hrun
  refine foldlM_range_preserves _
    (fun _ t => GLCM.tableSum GrayPair.frequency t.grayPairs t.lastInsertionPosition
      = t.numberOfPairs) _ _ st rfl (fun i _ t t' ht hrow => ?_) hrun
  exact foldlM_range_preserves _
    (fun _ u => GLCM.tableSum GrayPair.frequency u.grayPairs u.lastInsertionPosition
      = u.numberOfPairs) _ _ t' ht
    (fun j _ u u' hu hcol => GLCM.collectPair_partition pixels img windowData i u u' j hu hcol)
    hrow

/-- One insertion into an aggregated table adds the frequency inserted to the
total frequency of the occupied slots. -/
theorem GLCM.insertAggregatedElement_frequency (l : List AggregatedGrayPair)
    (a : AggregatedGrayPair) (last : Nat) (l' : List AggregatedGrayPair) (last' : Nat)
    (hrun : GLCM.insertAggregatedElement l a last = .ok (l', last')) :
    GLCM.tableSum AggregatedGrayPair.frequency l' last'
      = GLCM.tableSum AggregatedGrayPair.frequency l last + a.frequency :=
  GLCM.findOrInsert_tableSum AggregatedGrayPair.sameKey
    (fun e a => { e with frequency := e.frequency + a.frequency })
    AggregatedGrayPair.frequency l a last l' last' (fun _ _ => rfl) hrun

/-- One iteration of `codifyAggregatedPairs` carries the frequency of the gray
pair read into both tables. -/
theorem GLCM.codifyAggregatedPair_partition (grayPairs : List GrayPair)
    (st st' : GLCM.AggregatedTables) (m : Nat)
    (hinv : GLCM.tableSum AggregatedGrayPair.frequency st.first st.numberOfFirst
        = GLCM.tableSum GrayPair.frequency grayPairs m
      ∧ GLCM.tableSum AggregatedGrayPair.frequency st.second st.numberOfSecond
        = GLCM.tableSum GrayPair.frequency grayPairs m)
    (hrun : GLCM.codifyAggregatedPair grayPairs st m = .ok st') :
    GLCM.tableSum AggregatedGrayPair.frequency st'.first st'.numberOfFirst
        = GLCM.tableSum GrayPair.frequency grayPairs (m + 1)
      ∧ GLCM.tableSum AggregatedGrayPair.frequency st'.second st'.numberOfSecond
        = GLCM.tableSum GrayPair.frequency grayPairs (m + 1) := by
  unfold GLCM.codifyAggregatedPair at hrun
  split at hrun
  · cases hrun
  · rename_i pair hpair
    split at hrun
    · cases hrun
    · rename_i summed numberOfSummed h1
      split at hrun
      · cases hrun
      · rename_i subtracted numberOfSubtracted h2
        simp only [Except.ok.injEq] at hrun
        subst hrun
        have e1 := GLCM.insertAggregatedElement_frequency _ _ _ _ _ h1
        have e2 := GLCM.insertAggregatedElement_frequency _ _ _ _ _ h2
        have e3 := GLCM.tableSum_succ GrayPair.frequency grayPairs m pair hpair
        simp only at e1 e2 ⊢
        omega

/-- One iteration of `codifyMarginalPairs` carries the frequency of the gray
pair read into both tables. -/
theorem GLCM.codifyMarginalPair_partition (grayPairs : List GrayPair)
    (st st' : GLCM.AggregatedTables) (m : Nat)
    (hinv : GLCM.tableSum AggregatedGrayPair.frequency st.first st.numberOfFirst
        = GLCM.tableSum GrayPair.frequency grayPairs m
      ∧ GLCM.tableSum AggregatedGrayPair.frequency st.second st.numberOfSecond
        = GLCM.tableSum GrayPair.frequency grayPairs m)
    (hrun : GLCM.codifyMarginalPair grayPairs st m = .ok st') :
    GLCM.tableSum AggregatedGrayPair.frequency st'.first st'.numberOfFirst
        = GLCM.tableSum GrayPair.frequency grayPairs (m + 1)
      ∧ GLCM.tableSum AggregatedGrayPair.frequency st'.second st'.numberOfSecond
        = GLCM.tableSum GrayPair.frequency grayPairs (m + 1) := by
  unfold GLCM.codifyMarginalPair at hrun
  split at hrun
  · cases hrun
  · rename_i pair hpair
    split at hrun
    · cases hrun
    · rename_i xMarginal numberOfx h1
      split at hrun
      · cases hrun
      · rename_i yMarginal numberOfy h2
        simp only [Except.ok.injEq] at hrun
        subst hrun
        have e1 := GLCM.insertAggregatedElement_frequency _ _ _ _ _ h1
        have e2 := GLCM.insertAggregatedElement_frequency _ _ _ _ _ h2
        have e3 := GLCM.tableSum_succ GrayPair.frequency grayPairs m pair hpair
        simp only at e1 e2 ⊢
        omega

/-- After `codifyAggregatedPairs`, each of the two tables holds the total
frequency of the effective gray pairs. -/
theorem GLCM.codifyAggregatedPairs_partition (grayPairs : List GrayPair) (effective : Nat)
    (summedPairs subtractedPairs : List AggregatedGrayPair) (st : GLCM.AggregatedTables)
    (hrun : GLCM.codifyAggregatedPairs grayPairs effective summedPairs subtractedPairs
      = .ok st) :
    GLCM.tableSum AggregatedGrayPair.frequency st.first st.numberOfFirst
        = GLCM.tableSum GrayPair.frequency grayPairs effective
      ∧ GLCM.tableSum AggregatedGrayPair.frequency st.second st.numberOfSecond
        = GLCM.tableSum GrayPair.frequency grayPairs effective :=
  foldlM_range_preserves (GLCM.codifyAggregatedPair grayPairs)
    (fun m t => GLCM.tableSum AggregatedGrayPair.frequency t.first t.numberOfFirst
        = GLCM.tableSum GrayPair.frequency grayPairs m
      ∧ GLCM.tableSum AggregatedGrayPair.frequency t.second t.numberOfSecond
        = GLCM.tableSum GrayPair.frequency grayPairs m)
    effective _ st ⟨by simp [GLCM.tableSum], by simp [GLCM.tableSum]⟩
    (fun m _ t t' ht hstep => GLCM.codifyAggregatedPair_partition grayPairs t t' m ht hstep)
    hrun

/-- After `codifyMarginalPairs`, each of the two tables holds the total
frequency of the effective gray pairs. -/
theorem GLCM.codifyMarginalPairs_partition (grayPairs : List GrayPair) (effective : Nat)
    (xMarginalPairs yMarginalPairs : List AggregatedGrayPair) (st : GLCM.AggregatedTables)
    (hrun : GLCM.codifyMarginalPairs grayPairs effective xMarginalPairs yMarginalPairs
      = .ok st) :
    GLCM.tableSum AggregatedGrayPair.frequency st.first st.numberOfFirst
        = GLCM.tableSum GrayPair.frequency grayPairs effective
      ∧ GLCM.tableSum AggregatedGrayPair.frequency st.second st.numberOfSecond
        = GLCM.tableSum GrayPair.frequency grayPairs effective :=
  foldlM_range_preserves (GLCM.codifyMarginalPair grayPairs)
    (fun m t => GLCM.tableSum AggregatedGrayPair.frequency t.first t.numberOfFirst
        = GLCM.tableSum GrayPair.frequency grayPairs m
      ∧ GLCM.tableSum AggregatedGrayPair.frequency t.second t.numberOfSecond
        = GLCM.tableSum GrayPair.frequency grayPairs m)
    effective _ st ⟨by simp [GLCM.tableSum], by simp [GLCM.tableSum]⟩
    (fun m _ t t' ht hstep => GLCM.codifyMarginalPair_partition grayPairs t t' m ht hstep)
    hrun

/-- What the constructor did when it did not fail. -/
theorem GLCM.build_ok (pixels : List Nat) (image : ImageData) (windowData : Window)
    (wa : WorkArea) (g : GLCM) (hrun : GLCM.build pixels image windowData wa = .ok g) :
    ∃ elements aggregated marginal,
      GLCM.initializeGlcmElements pixels image windowData wa.cleanup.grayPairs = .ok elements
      ∧ GLCM.codifyAggregatedPairs elements.grayPairs elements.lastInsertionPosition
          wa.cleanup.summedPairs wa.cleanup.subtractedPairs = .ok aggregated
      ∧ GLCM.codifyMarginalPairs elements.grayPairs elements.lastInsertionPosition
          wa.cleanup.xMarginalPairs wa.cleanup.yMarginalPairs = .ok marginal
      ∧ g.grayPairs = elements.grayPairs
      ∧ g.effectiveNumberOfGrayPairs = elements.lastInsertionPosition
      ∧ g.numberOfPairs = elements.numberOfPairs
      ∧ g.summedPairs = aggregated.first ∧ g.numberOfSummedPairs = aggregated.numberOfFirst
      ∧ g.subtractedPairs = aggregated.second
      ∧ g.numberOfSubtractedPairs = aggregated.numberOfSecond
      ∧ g.xMarginalPairs = marginal.first ∧ g.numberOfxMarginalPairs = marginal.numberOfFirst
      ∧ g.yMarginalPairs = marginal.second
      ∧ g.numberOfyMarginalPairs = marginal.numberOfSecond := by
  unfold GLCM.build at hrun
  simp only at hrun
  split at hrun
  · cases hrun
  · rename_i elements h1
    split at hrun
    · cases hrun
    · rename_i aggregated h2
      split at hrun
      · cases hrun
      · rename_i marginal h3
        simp only [Except.ok.injEq] at hrun
        subst hrun
        exact ⟨elements, aggregated, marginal, h1, h2, h3, rfl, rfl, rfl, rfl, rfl, rfl, rfl,
          rfl, rfl, rfl, rfl⟩

/-! ## C4: the partition invariant of the builder -/

/-- C4. For every GLCM that the builder returns (any window, direction shift,
symmetry flag, pixel data and work area for which the construction does not
fail), `getNumberOfPairs()` equals the sum of the frequencies of the first
`effectiveNumberOfGrayPairs` gray pairs and, separately, the sum of the
frequencies of the effective entries of `summedPairs`, of `subtractedPairs`, of
`xMarginalPairs` and of `yMarginalPairs`. -/
theorem GLCM.build_partition_invariant (pixels : List Nat) (image : ImageData)
    (windowData : Window) (wa : WorkArea) (g : GLCM)
    (hbuilt : GLCM.build pixels image windowData wa = .ok g) :
    g.getNumberOfPairs
        = ((g.grayPairs.take g.effectiveNumberOfGrayPairs).map GrayPair.frequency).sum
    ∧ g.getNumberOfPairs
        = ((g.summedPairs.take g.numberOfSummedPairs).map AggregatedGrayPair.frequency).sum
    ∧ g.getNumberOfPairs
        = ((g.subtractedPairs.take g.numberOfSubtractedPairs).map
            AggregatedGrayPair.frequency).sum
    ∧ g.getNumberOfPairs
        = ((g.xMarginalPairs.take g.numberOfxMarginalPairs).map
            AggregatedGrayPair.frequency).sum
    ∧ g.getNumberOfPairs
        = ((g.yMarginalPairs.take g.numberOfyMarginalPairs).map
            AggregatedGrayPair.frequency).sum := by
  obtain ⟨elements, aggregated, marginal, h1, h2, h3, e1, e2, e3, e4, e5, e6, e7, e8, e9,
    e10, e11⟩ := GLCM.build_ok pixels image windowData wa g hbuilt
  have hpairs := GLCM.initializeGlcmElements_partition _ _ _ _ _ h1
  have hagg := GLCM.codifyAggregatedPairs_partition _ _ _ _ _ h2
  have hmar := GLCM.codifyMarginalPairs_partition _ _ _ _ _ h3
  unfold GLCM.tableSum at hpairs hagg hmar
  unfold GLCM.getNumberOfPairs
  rw [e1, e2, e3, e4, e5, e6, e7, e8, e9, e10, e11]
  refine ⟨hpairs.symm, ?_, ?_, ?_, ?_⟩
  · rw [hagg.1, hpairs]
  · rw [hagg.2, hpairs]
  · rw [hmar.1, hpairs]
  · rw [hmar.2, hpairs]

/-- C4 on the 2x2 image `0 5 / 5 0`, direction 0°, in a used work area of two
slots. -/
theorem GLCM.build_partition_invariant_witness :
    GLCM.build [0, 5, 5, 0] ⟨2, 2, 5⟩ ⟨2, 1, false, 0, 1, 0, 0⟩
        ⟨2, [⟨3, 3, 7⟩, ⟨1, 2, 3⟩], [⟨4, 4⟩, ⟨1, 1⟩], [⟨2, 9⟩, ⟨0, 1⟩], [⟨1, 1⟩, ⟨1, 1⟩],
          [⟨6, 2⟩, ⟨6, 3⟩]⟩ = .ok GLCM.exampleGLCM
    ∧ GLCM.exampleGLCM.getNumberOfPairs
        = ((GLCM.exampleGLCM.grayPairs.take GLCM.exampleGLCM.effectiveNumberOfGrayPairs).map
            GrayPair.frequency).sum :=
  ⟨by rfl,
    (GLCM.build_partition_invariant [0, 5, 5, 0] ⟨2, 2, 5⟩ ⟨2, 1, false, 0, 1, 0, 0⟩
      ⟨2, [⟨3, 3, 7⟩, ⟨1, 2, 3⟩], [⟨4, 4⟩, ⟨1, 1⟩], [⟨2, 9⟩, ⟨0, 1⟩], [⟨1, 1⟩, ⟨1, 1⟩],
        [⟨6, 2⟩, ⟨6, 3⟩]⟩ GLCM.exampleGLCM (by rfl)).1⟩

/-! ## Lemmas on the symmetric mode -/

/-- One reference pixel keeps the mirror-merge relation between the two
modes. -/
theorem GLCM.collectPair_mirrorMerged (pixels : List Nat) (img : ImageData)
    (windowData : Window) (i j : Nat) (a a' b b' : GLCM.Elements)
    (hR : GLCM.MirrorMerged a b)
    (ha : GLCM.collectPair pixels img { windowData with symmetric := true } i a j = .ok a')
    (hb : GLCM.collectPair pixels img { windowData with symmetric := false } i b j = .ok b') :
    GLCM.MirrorMerged a' b' := by
  obtain ⟨x, y, l', last', hx, hy, hins, rfl⟩ := GLCM.collectPair_ok _ _ _ _ _ _ _ ha
  obtain ⟨x2, y2, l2, last2, hx2, hy2, hins2, rfl⟩ := GLCM.collectPair_ok _ _ _ _ _ _ _ hb
  have hxx : x = x2 := Except.ok.inj (hx.symm.trans hx2)
  have hyy : y = y2 := Except.ok.inj (hy.symm.trans hy2)
  subst hxx hyy
  obtain ⟨l1, last1, h1, hcase⟩ := GLCM.insertElement_cases _ _ _ _ _ _ hins
  obtain ⟨m1, mlast1, k1, kcase⟩ := GLCM.insertElement_cases _ _ _ _ _ _ hins2
  have hsym : ({ windowData with symmetric := true } : Window).symmetric = true := rfl
  have hplain : ({ windowData with symmetric := false } : Window).symmetric = false := rfl
  rcases hcase with ⟨hf, -, -⟩ | ⟨-, h2⟩
  · rw [hsym] at hf; cases hf
  rcases kcase with ⟨-, rfl, rfl⟩ | ⟨hf, -⟩
  swap
  · rw [hplain] at hf; cases hf
  obtain ⟨hfreq, hcount⟩ := hR
  refine ⟨fun p q => ?_, ?_⟩
  · have s1 := GLCM.insertGrayPair_frequencyAt p q _ _ _ _ _ rfl h1
    have s2 := GLCM.insertGrayPair_frequencyAt p q _ _ _ _ _ rfl h2
    have n1 := GLCM.insertGrayPair_frequencyAt p q _ _ _ _ _ rfl k1
    have n2 := GLCM.insertGrayPair_frequencyAt q p _ _ _ _ _ rfl k1
    have hpq := hfreq p q
    simp only at s1 s2 n1 n2 hpq ⊢
    have hc : (if y = p ∧ x = q then 1 else 0 : Nat) = (if x = q ∧ y = p then 1 else 0) :=
      if_congr and_comm rfl rfl
    rw [s2, s1, n1, n2, hpq, hc]
    omega
  · simp only [hsym, hplain, if_true, Bool.false_eq_true, if_false, hcount]
    omega

/-- The gray pairs collected in symmetric mode are the mirror-merge of those
collected in non-symmetric mode. -/
theorem GLCM.initializeGlcmElements_mirrorMerged (pixels : List Nat) (img : ImageData)
    (windowData : Window) (grayPairs grayPairs' : List GrayPair) (a b : GLCM.Elements)
    (ha : GLCM.initializeGlcmElements pixels img { windowData with symmetric := true }
      grayPairs = .ok a)
    (hb : GLCM.initializeGlcmElements pixels img { windowData with symmetric := false }
      grayPairs' = .ok b) :
    GLCM.MirrorMerged a b := by
  unfold GLCM.initializeGlcmElements at ha hb
  refine foldlM_range_related _ _ GLCM.MirrorMerged _ _ a _ b ?_ (fun i _ s s' t t' hR hs ht => ?_)
    ha hb
  · exact ⟨fun p q => by simp [GLCM.tableSum], rfl⟩
  · exact foldlM_range_related _ _ GLCM.MirrorMerged _ _ s' _ t' hR
      (fun j _ u u' v v' hR2 hu hv =>
        GLCM.collectPair_mirrorMerged pixels img windowData i j u u' v v' hR2 hu hv) hs ht

/-! ## C5: the symmetry round-trip of the builder -/

/-- C5. For every window, direction and pixel data, the gray-pair table built in
symmetric mode is the mirror-merge of the table built in non-symmetric mode:
for every pair of gray levels `(i, j)` the symmetric-mode frequency of `(i, j)`
equals the non-symmetric frequency of `(i, j)` plus the non-symmetric frequency
of `(j, i)` (a diagonal pair `(i, i)` is doubled), and the symmetric
`numberOfPairs` is twice the non-symmetric one. -/
theorem GLCM.symmetric_round_trip (pixels : List Nat) (image : ImageData)
    (windowData : Window) (wa wa' : WorkArea) (symmetricGlcm plainGlcm : GLCM)
    (hsym : GLCM.build pixels image { windowData with symmetric := true } wa
      = .ok symmetricGlcm)
    (hplain : GLCM.build pixels image { windowData with symmetric := false } wa'
      = .ok plainGlcm) :
    (∀ i j, symmetricGlcm.frequencyOf i j
        = plainGlcm.frequencyOf i j + plainGlcm.frequencyOf j i)
    ∧ (∀ i, symmetricGlcm.frequencyOf i i = 2 * plainGlcm.frequencyOf i i)
    ∧ symmetricGlcm.getNumberOfPairs = 2 * plainGlcm.getNumberOfPairs := by
  obtain ⟨es, -, -, hs1, -, -, s1, s2, s3, -⟩ := GLCM.build_ok _ _ _ _ _ hsym
  obtain ⟨ep, -, -, hp1, -, -, p1, p2, p3, -⟩ := GLCM.build_ok _ _ _ _ _ hplain
  obtain ⟨hfreq, hcount⟩ := GLCM.initializeGlcmElements_mirrorMerged _ _ _ _ _ _ _ hs1 hp1
  have hall : ∀ i j, symmetricGlcm.frequencyOf i j
      = plainGlcm.frequencyOf i j + plainGlcm.frequencyOf j i := by
    intro i j
    unfold GLCM.frequencyOf
    rw [s1, s2, p1, p2]
    exact hfreq i j
  refine ⟨hall, fun i => ?_, ?_⟩
  · rw [hall i i]; omega
  · unfold GLCM.getNumberOfPairs
    rw [s3, p3]
    exact hcount

/-- C5 on the 2x2 image `0 5 / 5 0`, direction 0°. -/
theorem GLCM.symmetric_round_trip_witness :
    GLCM.build [0, 5, 5, 0] ⟨2, 2, 5⟩ { (⟨2, 1, false, 0, 1, 0, 0⟩ : Window) with symmetric := true }
        ⟨4, [⟨3, 3, 7⟩, ⟨1, 2, 3⟩, ⟨0, 0, 1⟩, ⟨0, 0, 0⟩], [⟨4, 4⟩, ⟨1, 1⟩, ⟨1, 1⟩, ⟨1, 1⟩],
          [⟨2, 9⟩, ⟨0, 1⟩, ⟨1, 1⟩, ⟨1, 1⟩], [⟨1, 1⟩, ⟨1, 1⟩, ⟨1, 1⟩, ⟨1, 1⟩],
          [⟨6, 2⟩, ⟨6, 3⟩, ⟨1, 1⟩, ⟨1, 1⟩]⟩ = .ok GLCM.exampleSymmetricGLCM
    ∧ GLCM.build [0, 5, 5, 0] ⟨2, 2, 5⟩
        { (⟨2, 1, false, 0, 1, 0, 0⟩ : Window) with symmetric := false }
        ⟨2, [⟨3, 3, 7⟩, ⟨1, 2, 3⟩], [⟨4, 4⟩, ⟨1, 1⟩], [⟨2, 9⟩, ⟨0, 1⟩], [⟨1, 1⟩, ⟨1, 1⟩],
          [⟨6, 2⟩, ⟨6, 3⟩]⟩ = .ok GLCM.exampleGLCM
    ∧ GLCM.exampleSymmetricGLCM.getNumberOfPairs = 2 * GLCM.exampleGLCM.getNumberOfPairs :=
  ⟨by rfl, by rfl,
    (GLCM.symmetric_round_trip [0, 5, 5, 0] ⟨2, 2, 5⟩ ⟨2, 1, false, 0, 1, 0, 0⟩
      ⟨4, [⟨3, 3, 7⟩, ⟨1, 2, 3⟩, ⟨0, 0, 1⟩, ⟨0, 0, 0⟩], [⟨4, 4⟩, ⟨1, 1⟩, ⟨1, 1⟩, ⟨1, 1⟩],
        [⟨2, 9⟩, ⟨0, 1⟩, ⟨1, 1⟩, ⟨1, 1⟩], [⟨1, 1⟩, ⟨1, 1⟩, ⟨1, 1⟩, ⟨1, 1⟩],
        [⟨6, 2⟩, ⟨6, 3⟩, ⟨1, 1⟩, ⟨1, 1⟩]⟩
      ⟨2, [⟨3, 3, 7⟩, ⟨1, 2, 3⟩], [⟨4, 4⟩, ⟨1, 1⟩], [⟨2, 9⟩, ⟨0, 1⟩], [⟨1, 1⟩, ⟨1, 1⟩],
        [⟨6, 2⟩, ⟨6, 3⟩]⟩ GLCM.exampleSymmetricGLCM GLCM.exampleGLCM (by rfl) (by rfl)).2.2⟩

/-! ## The builder returns a GLCM -/

/-- A read inside the pixel buffer yields a gray level. -/
theorem GLCM.readPixel_ok (pixels : List Nat) (index : Int) (h0 : 0 ≤ index)
    (h1 : index < pixels.length) : ∃ level, GLCM.readPixel pixels index = .ok level := by
  unfold GLCM.readPixel
  rw [if_neg (by omega)]
  have hlt : index.toNat < pixels.length := by omega
  rw [List.getElem?_eq_getElem hlt]
  exact ⟨_, rfl⟩

/-- Find-or-insert does not fail while a free slot is left; it keeps the number
of slots and fills at most one more. -/
theorem GLCM.findOrInsert_succeeds {E : Type} (sameKey : E → E → Bool) (merge : E → E → E)
    (l : List E) (actual : E) (last : Nat) (hfree : last < l.length) :
    ∃ l' last', GLCM.findOrInsert sameKey merge l actual last = .ok (l', last')
      ∧ l'.length = l.length ∧ last' ≤ last + 1 := by
  unfold GLCM.findOrInsert
  split
  · rename_i position hfind
    have hpred := List.find?_some hfind
    split
    · exact ⟨_, _, rfl, by simp, by omega⟩
    · rename_i hnone
      rw [hnone] at hpred
      simp at hpred
  · rw [if_pos hfree]
    exact ⟨_, _, rfl, by simp, by omega⟩

/-- The method `insertElement` does not fail while two free slots are left (one
in non-symmetric mode). -/
theorem GLCM.insertElement_succeeds (l : List GrayPair) (a : GrayPair) (last : Nat)
    (symmetricity : Bool) (hfree : last + (if symmetricity then 2 else 1) ≤ l.length) :
    ∃ l' last', GLCM.insertElement l a last symmetricity = .ok (l', last')
      ∧ l'.length = l.length ∧ last' ≤ last + (if symmetricity then 2 else 1) := by
  have hpos : last < l.length := by split at hfree <;> omega
  obtain ⟨l1, last1, h1, hl1, hb1⟩ := GLCM.findOrInsert_succeeds GrayPair.sameLevels
    (fun e _ => { e with frequency := e.frequency + 1 }) l a last hpos
  unfold GLCM.insertElement GLCM.insertGrayPair
  rw [h1]
  cases symmetricity with
  | false => exact ⟨l1, last1, rfl, hl1, by simpa using hb1⟩
  | true =>
    simp only [if_true] at hfree ⊢
    obtain ⟨l2, last2, h2, hl2, hb2⟩ := GLCM.findOrInsert_succeeds GrayPair.sameLevels
      (fun e _ => { e with frequency := e.frequency + 1 }) l1
      ⟨a.grayLevelJ, a.grayLevelI, a.frequency⟩ last1 (by omega)
    exact ⟨l2, last2, h2, by omega, by omega⟩

/-- One iteration of the collecting loops does not fail when its two pixels lie
in the buffer and the free slots suffice. -/
theorem GLCM.collectPair_succeeds (pixels : List Nat) (img : ImageData) (windowData : Window)
    (i j : Nat) (st : GLCM.Elements)
    (hbounds : GLCM.InBounds pixels img windowData)
    (hi : (i : Int) < GLCM.getWindowRowsBorder windowData)
    (hj : (j : Int) < GLCM.getWindowColsBorder windowData)
    (hfree : st.lastInsertionPosition + (if windowData.symmetric then 2 else 1)
      ≤ st.grayPairs.length) :
    ∃ st', GLCM.collectPair pixels img windowData i st j = .ok st'
      ∧ st'.grayPairs.length = st.grayPairs.length
      ∧ st'.lastInsertionPosition
          ≤ st.lastInsertionPosition + (if windowData.symmetric then 2 else 1) := by
  obtain ⟨⟨r0, r1⟩, ⟨n0, n1⟩⟩ := hbounds i j hi hj
  obtain ⟨x, hx⟩ := GLCM.readPixel_ok pixels _ r0 r1
  obtain ⟨y, hy⟩ := GLCM.readPixel_ok pixels _ n0 n1
  obtain ⟨l', last', hins, hlen, hlast⟩ := GLCM.insertElement_succeeds st.grayPairs ⟨x, y, 1⟩
    st.lastInsertionPosition windowData.symmetric hfree
  refine ⟨⟨l', last', st.numberOfPairs + (if windowData.symmetric then 2 else 1)⟩, ?_, hlen,
    hlast⟩
  unfold GLCM.collectPair
  simp only [hx, hy, hins]

/-- The collecting loops do not fail when the precondition holds and the gray
pair array has a slot for every insertion; they keep the number of slots. -/
theorem GLCM.initializeGlcmElements_succeeds (pixels : List Nat) (img : ImageData)
    (windowData : Window) (grayPairs : List GrayPair)
    (hbounds : GLCM.InBounds pixels img windowData)
    (hcap : GLCM.insertions windowData ≤ grayPairs.length) :
    ∃ st, GLCM.initializeGlcmElements pixels img windowData grayPairs = .ok st
      ∧ st.grayPairs.length = grayPairs.length
      ∧ st.lastInsertionPosition ≤ GLCM.insertions windowData := by
  unfold GLCM.initializeGlcmElements
  unfold GLCM.insertions at hcap ⊢
  generalize hnR : (GLCM.getWindowRowsBorder windowData).toNat = nR at hcap ⊢
  generalize hnC : (GLCM.getWindowColsBorder windowData).toNat = nC at hcap ⊢
  generalize hmult : (if windowData.symmetric then 2 else 1 : Nat) = mult at hcap ⊢
  obtain ⟨st, hrun, hlen, hlast⟩ := foldlM_range_invariant
    (fun st i => (List.range nC).foldlM (GLCM.collectPair pixels img windowData i) st)
    (fun i (st : GLCM.Elements) => st.grayPairs.length = grayPairs.length
      ∧ st.lastInsertionPosition ≤ i * nC * mult)
    nR ⟨grayPairs, 0, 0⟩ ⟨rfl, by simp⟩
    (fun i hi st hst => by
      obtain ⟨st', hrow, hlen', hlast'⟩ := foldlM_range_invariant
        (GLCM.collectPair pixels img windowData i)
        (fun j (u : GLCM.Elements) => u.grayPairs.length = grayPairs.length
          ∧ u.lastInsertionPosition ≤ (i * nC + j) * mult)
        nC st ⟨hst.1, by simpa using hst.2⟩
        (fun j hj u hu => by
          have hcount : (i * nC + j + 1) * mult ≤ nR * nC * mult := by
            apply Nat.mul_le_mul_right
            calc i * nC + j + 1 ≤ i * nC + nC := by omega
              _ = (i + 1) * nC := by ring
              _ ≤ nR * nC := Nat.mul_le_mul_right _ hi
          have hsplit : (i * nC + j + 1) * mult = (i * nC + j) * mult + mult := by ring
          obtain ⟨u', hu1, hu2, hu3⟩ := GLCM.collectPair_succeeds pixels img windowData i j u
            hbounds (by omega) (by omega) (by rw [hmult, hu.1]; omega)
          rw [hmult] at hu3
          exact ⟨u', hu1, by rw [hu2, hu.1], by
            have := hu.2
            calc u'.lastInsertionPosition ≤ u.lastInsertionPosition + mult := hu3
              _ ≤ (i * nC + j) * mult + mult := by omega
              _ = (i * nC + (j + 1)) * mult := by ring⟩)
      exact ⟨st', hrow, hlen', by
        calc st'.lastInsertionPosition ≤ (i * nC + nC) * mult := hlast'
          _ = (i + 1) * nC * mult := by ring⟩)
  exact ⟨st, hrun, hlen, hlast⟩

/-- One iteration of `codifyAggregatedPairs` does not fail on an effective gray
pair while both tables have a free slot. -/
theorem GLCM.codifyAggregatedPair_succeeds (grayPairs : List GrayPair)
    (st : GLCM.AggregatedTables) (m : Nat) (hm : m < grayPairs.length)
    (h1 : st.numberOfFirst < st.first.length) (h2 : st.numberOfSecond < st.second.length) :
    ∃ st', GLCM.codifyAggregatedPair grayPairs st m = .ok st'
      ∧ st'.first.length = st.first.length ∧ st'.second.length = st.second.length
      ∧ st'.numberOfFirst ≤ st.numberOfFirst + 1
      ∧ st'.numberOfSecond ≤ st.numberOfSecond + 1 := by
  unfold GLCM.codifyAggregatedPair GLCM.insertAggregatedElement
  rw [List.getElem?_eq_getElem hm]
  simp only
  obtain ⟨a, na, ha, hla, hna⟩ := GLCM.findOrInsert_succeeds AggregatedGrayPair.sameKey
    (fun e a => { e with frequency := e.frequency + a.frequency }) st.first
    ⟨grayPairs[m].grayLevelI + grayPairs[m].grayLevelJ, grayPairs[m].frequency⟩
    st.numberOfFirst h1
  obtain ⟨b, nb, hb, hlb, hnb⟩ := GLCM.findOrInsert_succeeds AggregatedGrayPair.sameKey
    (fun e a => { e with frequency := e.frequency + a.frequency }) st.second
    ⟨(grayPairs[m].grayLevelI - grayPairs[m].grayLevelJ)
      + (grayPairs[m].grayLevelJ - grayPairs[m].grayLevelI), grayPairs[m].frequency⟩
    st.numberOfSecond h2
  rw [ha]
  simp only
  rw [hb]
  exact ⟨_, rfl, hla, hlb, hna, hnb⟩

/-- One iteration of `codifyMarginalPairs` does not fail on an effective gray
pair while both tables have a free slot. -/
theorem GLCM.codifyMarginalPair_succeeds (grayPairs : List GrayPair)
    (st : GLCM.AggregatedTables) (m : Nat) (hm : m < grayPairs.length)
    (h1 : st.numberOfFirst < st.first.length) (h2 : st.numberOfSecond < st.second.length) :
    ∃ st', GLCM.codifyMarginalPair grayPairs st m = .ok st'
      ∧ st'.first.length = st.first.length ∧ st'.second.length = st.second.length
      ∧ st'.numberOfFirst ≤ st.numberOfFirst + 1
      ∧ st'.numberOfSecond ≤ st.numberOfSecond + 1 := by
  unfold GLCM.codifyMarginalPair GLCM.insertAggregatedElement
  rw [List.getElem?_eq_getElem hm]
  simp only
  obtain ⟨a, na, ha, hla, hna⟩ := GLCM.findOrInsert_succeeds AggregatedGrayPair.sameKey
    (fun e a => { e with frequency := e.frequency + a.frequency }) st.first
    ⟨grayPairs[m].grayLevelI, grayPairs[m].frequency⟩ st.numberOfFirst h1
  obtain ⟨b, nb, hb, hlb, hnb⟩ := GLCM.findOrInsert_succeeds AggregatedGrayPair.sameKey
    (fun e a => { e with frequency := e.frequency + a.frequency }) st.second
    ⟨grayPairs[m].grayLevelJ, grayPairs[m].frequency⟩ st.numberOfSecond h2
  rw [ha]
  simp only
  rw [hb]
  exact ⟨_, rfl, hla, hlb, hna, hnb⟩

/-- The loop of `codifyAggregatedPairs` does not fail when the effective gray
pairs exist and both tables have a slot for each of them. -/
theorem GLCM.codifyAggregatedPairs_succeeds (grayPairs : List GrayPair) (effective : Nat)
    (summedPairs subtractedPairs : List AggregatedGrayPair)
    (heff : effective ≤ grayPairs.length) (h1 : effective ≤ summedPairs.length)
    (h2 : effective ≤ subtractedPairs.length) :
    ∃ st, GLCM.codifyAggregatedPairs grayPairs effective summedPairs subtractedPairs
      = .ok st := by
  obtain ⟨st, hrun, -⟩ := foldlM_range_invariant (GLCM.codifyAggregatedPair grayPairs)
    (fun m (t : GLCM.AggregatedTables) => t.first.length = summedPairs.length
      ∧ t.second.length = subtractedPairs.length ∧ t.numberOfFirst ≤ m
      ∧ t.numberOfSecond ≤ m)
    effective ⟨summedPairs, 0, subtractedPairs, 0⟩ ⟨rfl, rfl, le_refl 0, le_refl 0⟩
    (fun m hm t ht => by
      obtain ⟨t', hstep, l1, l2, n1, n2⟩ := GLCM.codifyAggregatedPair_succeeds grayPairs t m
        (by omega) (by rw [ht.1]; omega) (by rw [ht.2.1]; omega)
      exact ⟨t', hstep, by rw [l1, ht.1], by rw [l2, ht.2.1], by omega, by omega⟩)
  exact ⟨st, hrun⟩

/-- The loop of `codifyMarginalPairs` does not fail when the effective gray
pairs exist and both tables have a slot for each of them. -/
theorem GLCM.codifyMarginalPairs_succeeds (grayPairs : List GrayPair) (effective : Nat)
    (xMarginalPairs yMarginalPairs : List AggregatedGrayPair)
    (heff : effective ≤ grayPairs.length) (h1 : effective ≤ xMarginalPairs.length)
    (h2 : effective ≤ yMarginalPairs.length) :
    ∃ st, GLCM.codifyMarginalPairs grayPairs effective xMarginalPairs yMarginalPairs
      = .ok st := by
  obtain ⟨st, hrun, -⟩ := foldlM_range_invariant (GLCM.codifyMarginalPair grayPairs)
    (fun m (t : GLCM.AggregatedTables) => t.first.length = xMarginalPairs.length
      ∧ t.second.length = yMarginalPairs.length ∧ t.numberOfFirst ≤ m
      ∧ t.numberOfSecond ≤ m)
    effective ⟨xMarginalPairs, 0, yMarginalPairs, 0⟩ ⟨rfl, rfl, le_refl 0, le_refl 0⟩
    (fun m hm t ht => by
      obtain ⟨t', hstep, l1, l2, n1, n2⟩ := GLCM.codifyMarginalPair_succeeds grayPairs t m
        (by omega) (by rw [ht.1]; omega) (by rw [ht.2.1]; omega)
      exact ⟨t', hstep, by rw [l1, ht.1], by rw [l2, ht.2.1], by omega, by omega⟩)
  exact ⟨st, hrun⟩

/-- The reset keeps the sizes of the five arrays. -/
theorem WorkArea.cleanup_lengths (wa : WorkArea) :
    wa.cleanup.grayPairs.length = wa.grayPairs.length
    ∧ wa.cleanup.summedPairs.length = wa.summedPairs.length
    ∧ wa.cleanup.subtractedPairs.length = wa.subtractedPairs.length
    ∧ wa.cleanup.xMarginalPairs.length = wa.xMarginalPairs.length
    ∧ wa.cleanup.yMarginalPairs.length = wa.yMarginalPairs.length := by
  unfold WorkArea.cleanup
  rw [WorkArea.foldl_cleanupSlot_grayPairs, WorkArea.foldl_cleanupSlot_summedPairs,
    WorkArea.foldl_cleanupSlot_subtractedPairs, WorkArea.foldl_cleanupSlot_xMarginalPairs,
    WorkArea.foldl_cleanupSlot_yMarginalPairs]
  exact ⟨foldl_set_length _ _ _, foldl_set_length _ _ _, foldl_set_length _ _ _,
    foldl_set_length _ _ _, foldl_set_length _ _ _⟩

/-- The builder returns a GLCM whenever the window satisfies the in-bounds
precondition and each of the five arrays of the work area has a slot for every
insertion of the window. -/
theorem GLCM.build_succeeds (pixels : List Nat) (image : ImageData) (windowData : Window)
    (wa : WorkArea) (hbounds : GLCM.InBounds pixels image windowData)
    (hg : GLCM.insertions windowData ≤ wa.grayPairs.length)
    (hs : GLCM.insertions windowData ≤ wa.summedPairs.length)
    (hd : GLCM.insertions windowData ≤ wa.subtractedPairs.length)
    (hx : GLCM.insertions windowData ≤ wa.xMarginalPairs.length)
    (hy : GLCM.insertions windowData ≤ wa.yMarginalPairs.length) :
    ∃ g, GLCM.build pixels image windowData wa = .ok g := by
  obtain ⟨lg, ls, ld, lx, ly⟩ := WorkArea.cleanup_lengths wa
  obtain ⟨elements, h1, hlen, hlast⟩ := GLCM.initializeGlcmElements_succeeds pixels image
    windowData wa.cleanup.grayPairs hbounds (by rw [lg]; exact hg)
  obtain ⟨aggregated, h2⟩ := GLCM.codifyAggregatedPairs_succeeds elements.grayPairs
    elements.lastInsertionPosition wa.cleanup.summedPairs wa.cleanup.subtractedPairs
    (by rw [hlen, lg]; omega) (by rw [ls]; omega) (by rw [ld]; omega)
  obtain ⟨marginal, h3⟩ := GLCM.codifyMarginalPairs_succeeds elements.grayPairs
    elements.lastInsertionPosition wa.cleanup.xMarginalPairs wa.cleanup.yMarginalPairs
    (by rw [hlen, lg]; omega) (by rw [lx]; omega) (by rw [ly]; omega)
  unfold GLCM.build
  simp only [h1, h2, h3]
  exact ⟨_, rfl⟩

/-! ## One slot per pair of gray levels -/

/-- One insertion keeps the occupied slots of the gray-pair table on distinct
pairs of gray levels. -/
theorem GLCM.insertGrayPair_distinctKeys (l : List GrayPair) (a : GrayPair) (last : Nat)
    (l' : List GrayPair) (last' : Nat) (hinv : GLCM.DistinctKeys l last)
    (hrun : GLCM.insertGrayPair l a last = .ok (l', last')) :
    GLCM.DistinctKeys l' last' := by
  unfold GLCM.insertGrayPair GLCM.findOrInsert at hrun
  split at hrun
  · rename_i position hfind
    split at hrun
    · rename_i e0 he0
      simp only [Except.ok.injEq, Prod.mk.injEq] at hrun
      obtain ⟨rfl, rfl⟩ := hrun
      have hkey : ∀ (p : Nat) (e : GrayPair),
          (l.set position { e0 with frequency := e0.frequency + 1 })[p]? = some e →
          ∃ e1, l[p]? = some e1 ∧ e1.grayLevelI = e.grayLevelI
            ∧ e1.grayLevelJ = e.grayLevelJ := by
        intro p e hpe
        by_cases hpp : position = p
        · subst hpp
          have hlt : position < l.length := by
            rcases Nat.lt_or_ge position l.length with h | h
            · exact h
            · rw [List.getElem?_eq_none h] at he0; cases he0
          rw [List.getElem?_set_self hlt] at hpe
          cases hpe
          exact ⟨e0, he0, rfl, rfl⟩
        · rw [List.getElem?_set_ne hpp] at hpe
          exact ⟨e, hpe, rfl, rfl⟩
      intro p q e f hpq hq hpe hqf
      obtain ⟨e1, h1, h1i, h1j⟩ := hkey p e hpe
      obtain ⟨f1, h2, h2i, h2j⟩ := hkey q f hqf
      have := hinv p q e1 f1 hpq hq h1 h2
      rw [h1i, h1j, h2i, h2j] at this
      exact this
    · cases hrun
  · rename_i hfind
    split at hrun
    · rename_i hlt
      simp only [Except.ok.injEq, Prod.mk.injEq] at hrun
      obtain ⟨rfl, rfl⟩ := hrun
      intro p q e f hpq hq hpe hqf
      rw [List.getElem?_set_ne (by omega)] at hpe
      by_cases hql : q = last
      · subst hql
        rw [List.getElem?_set_self hlt] at hqf
        cases hqf
        have hnone := List.find?_eq_none.mp hfind p (List.mem_range.mpr hpq)
        rw [hpe] at hnone
        simpa [GrayPair.sameLevels] using hnone
      · rw [List.getElem?_set_ne (Ne.symm hql)] at hqf
        exact hinv p q e f hpq (by omega) hpe hqf
    · cases hrun

/-- One reference pixel keeps the occupied slots on distinct pairs. -/
theorem GLCM.collectPair_distinctKeys (pixels : List Nat) (img : ImageData)
    (windowData : Window) (i : Nat) (st st' : GLCM.Elements) (j : Nat)
    (hinv : GLCM.DistinctKeys st.grayPairs st.lastInsertionPosition)
    (hrun : GLCM.collectPair pixels img windowData i st j = .ok st') :
    GLCM.DistinctKeys st'.grayPairs st'.lastInsertionPosition := by
  obtain ⟨x, y, l', last', -, -, hins, rfl⟩ := GLCM.collectPair_ok _ _ _ _ _ _ _ hrun
  obtain ⟨l1, last1, h1, hcase⟩ := GLCM.insertElement_cases _ _ _ _ _ _ hins
  have hfirst := GLCM.insertGrayPair_distinctKeys _ _ _ _ _ hinv h1
  rcases hcase with ⟨-, rfl, rfl⟩ | ⟨-, h2⟩
  · exact hfirst
  · exact GLCM.insertGrayPair_distinctKeys _ _ _ _ _ hfirst h2

/-- In every GLCM that the builder returns, no two effective gray pairs hold
the same pair of gray levels: `frequencyOf i j` is the frequency of the one
slot of `(i, j)`, if there is one. -/
theorem GLCM.build_distinctKeys (pixels : List Nat) (image : ImageData) (windowData : Window)
    (wa : WorkArea) (g : GLCM) (hbuilt : GLCM.build pixels image windowData wa = .ok g) :
    GLCM.DistinctKeys g.grayPairs g.effectiveNumberOfGrayPairs := by
  obtain ⟨elements, -, -, h1, -, -, e1, e2, -⟩ := GLCM.build_ok _ _ _ _ _ hbuilt
  rw [e1, e2]
  unfold GLCM.initializeGlcmElements at h1
  refine foldlM_range_preserves _
    (fun _ t => GLCM.DistinctKeys t.grayPairs t.lastInsertionPosition) _ _ elements
    (fun p q e f hpq hq => absurd hq (Nat.not_lt_zero q)) (fun i _ t t' ht hrow => ?_) h1
  exact foldlM_range_preserves _
    (fun _ u => GLCM.DistinctKeys u.grayPairs u.lastInsertionPosition) _ _ t' ht
    (fun j _ u u' hu hcol => GLCM.collectPair_distinctKeys pixels image windowData i u u' j hu
      hcol) hrow

/-! ## Lemmas on 32-bit `int` arithmetic -/

/-- The 32-bit value of `x` is congruent to `x` modulo `2^32`. -/
theorem toInt32_modEq (x : Int) : toInt32 x ≡ x [ZMOD 4294967296] := by
  unfold toInt32 Int.ModEq
  omega

/-- Congruent values have the same 32-bit value. -/
theorem toInt32_congr {x y : Int} (h : x ≡ y [ZMOD 4294967296]) : toInt32 x = toInt32 y := by
  unfold Int.ModEq at h
  unfold toInt32
  omega

/-- A value in the range of `int` is its own 32-bit value. -/
theorem toInt32_of_range {x : Int} (hlo : -2147483648 ≤ x) (hhi : x ≤ 2147483647) :
    toInt32 x = x := by
  unfold toInt32
  omega

/-- The `int` expression `a - b + 1`, as `compute` and `printExtimatedSizes`
evaluate it, is congruent to its mathematical value. -/
theorem toInt32_sub_add_one_modEq (a b : Int) :
    toInt32 (toInt32 (a - b) + 1) ≡ a - b + 1 [ZMOD 4294967296] :=
  (toInt32_modEq _).trans ((toInt32_modEq (a - b)).add_right 1)

/-- C12. For every image (`R` rows, `C` columns), window side `w ≤ min R C` and
direction count `D` (a count, `D ≥ 0`), with `N = (R-w+1)*(C-w+1)*18*D`: if
`8*N ≤ 2^31 - 1` then the printed "Total features number" is `N` and the
printed "Total features weight" is `floor(floor(8*N / 1024) / 1024)
= floor(8*N / 2^20)` (`/` on `Int` is the floor division here), the products
being computed in 32-bit `int`. -/
theorem ImageFeatureComputer.printExtimatedSizes_exact (progArg : ProgramArguments)
    (img : Image) (hw : progArg.windowSize ≤ min img.rows img.columns)
    (hD : 0 ≤ progArg.numberOfDirections)
    (hN : 8 * ((img.rows - progArg.windowSize + 1) * (img.columns - progArg.windowSize + 1)
      * 18 * progArg.numberOfDirections) ≤ 2 ^ 31 - 1) :
    (ImageFeatureComputer.printExtimatedSizes progArg img).1
        = (img.rows - progArg.windowSize + 1) * (img.columns - progArg.windowSize + 1)
          * 18 * progArg.numberOfDirections
    ∧ (ImageFeatureComputer.printExtimatedSizes progArg img).2
        = 8 * ((img.rows - progArg.windowSize + 1) * (img.columns - progArg.windowSize + 1)
          * 18 * progArg.numberOfDirections) / 1024 / 1024
    ∧ (ImageFeatureComputer.printExtimatedSizes progArg img).2
        = 8 * ((img.rows - progArg.windowSize + 1) * (img.columns - progArg.windowSize + 1)
          * 18 * progArg.numberOfDirections) / 2 ^ 20 := by
  have hr : 1 ≤ img.rows - progArg.windowSize + 1 := by
    have := min_le_left img.rows img.columns; omega
  have hc : 1 ≤ img.columns - progArg.windowSize + 1 := by
    have := min_le_right img.rows img.columns; omega
  generalize hNdef : (img.rows - progArg.windowSize + 1) * (img.columns - progArg.windowSize + 1)
    * 18 * progArg.numberOfDirections = N at hN ⊢
  have hN0 : 0 ≤ N := by
    rw [← hNdef]
    exact mul_nonneg (mul_nonneg (mul_nonneg (by omega) (by omega)) (by norm_num)) hD
  have hN1 : 8 * N ≤ 2147483647 := by norm_num at hN; exact hN
  have hnumber : toInt32 (toInt32 (toInt32 (toInt32 (toInt32 (img.rows - progArg.windowSize) + 1)
      * toInt32 (toInt32 (img.columns - progArg.windowSize) + 1)) * 18)
      * progArg.numberOfDirections) = N := by
    have hmod : toInt32 (toInt32 (toInt32 (toInt32 (img.rows - progArg.windowSize) + 1)
        * toInt32 (toInt32 (img.columns - progArg.windowSize) + 1)) * 18)
        * progArg.numberOfDirections ≡ N [ZMOD 4294967296] := by
      rw [← hNdef]
      exact ((toInt32_modEq _).trans (((toInt32_modEq _).trans
        ((toInt32_sub_add_one_modEq _ _).mul (toInt32_sub_add_one_modEq _ _))).mul_right
          18)).mul_right _
    rw [toInt32_congr hmod]
    exact toInt32_of_range (by omega) (by omega)
  have hsize : toInt32 (N * 8) = N * 8 := toInt32_of_range (by omega) (by omega)
  have hfirst : (ImageFeatureComputer.printExtimatedSizes progArg img).1 = N := hnumber
  have hsecond : (ImageFeatureComputer.printExtimatedSizes progArg img).2
      = 8 * N / 1024 / 1024 := by
    show Int.tdiv (Int.tdiv (toInt32 (toInt32 (toInt32 (toInt32 (toInt32 (toInt32
      (img.rows - progArg.windowSize) + 1) * toInt32 (toInt32
      (img.columns - progArg.windowSize) + 1)) * 18) * progArg.numberOfDirections) * 8))
      1024) 1024 = 8 * N / 1024 / 1024
    rw [hnumber, hsize, Int.tdiv_eq_ediv (a := N * 8) (by omega) (by norm_num),
      Int.tdiv_eq_ediv (Int.ediv_nonneg (by omega) (by norm_num)) (by norm_num),
      Int.mul_comm]
  refine ⟨hfirst, hsecond, ?_⟩
  rw [hsecond]
  norm_num
  omega

/-- C12 on a 1000x1000 image with window side 3 and four directions. -/
theorem ImageFeatureComputer.printExtimatedSizes_exact_witness :
    (3 : Int) ≤ min 1000 1000 ∧ (0 : Int) ≤ 4
    ∧ 8 * ((1000 - 3 + 1) * (1000 - 3 + 1) * 18 * (4 : Int)) ≤ 2 ^ 31 - 1
    ∧ (ImageFeatureComputer.printExtimatedSizes ⟨3, 1, false, 4, false, true, ""⟩
        ⟨[], 1000, 1000, 255⟩).1 = (1000 - 3 + 1) * (1000 - 3 + 1) * 18 * 4 :=
  ⟨by decide, by decide, by decide,
    (ImageFeatureComputer.printExtimatedSizes_exact ⟨3, 1, false, 4, false, true, ""⟩
      ⟨[], 1000, 1000, 255⟩ (by decide) (by decide) (by decide)).1⟩

/-! ## Lemmas on the lengths of the feature series -/

